import Mathlib

/-
  Verification development for the workflow graph validator and executor of
  the GenAI-Stack repository (backend/services/workflow_service.py).

  The Python code is shallowly embedded: dict-valued JSON-ish data becomes
  the inductive type `Val`, the mutable execution context becomes explicit
  state passing, raised exceptions become `Except`, and the unbounded
  recursion of `_execute_node` / `_has_cycles` becomes fuel-indexed
  recursion returning `Option` (with `none` modelling divergence; lemmas
  below show the chosen fuel is always sufficient where Python terminates).
  External services (embedding store, LLM, web search) are modelled as a
  record of capability functions, as they live outside this repository.
-/

set_option linter.unusedVariables false

namespace GenAIStack

/-- Python values as stored in node configs and the execution context. -/
inductive Val where
  | vStr (s : String)
  | vInt (n : Int)
  | vBool (b : Bool)
  | vNone
  | vList (xs : List Val)
  | vMap (m : List (String × Val))

/-- Python truthiness (`bool(v)`), used by `not x`, `if x`, `x or y`. -/
def pyTruthy : Val → Bool
  | .vStr s => !(s == "")
  | .vInt n => !(n == 0)
  | .vBool b => b
  | .vNone => false
  | .vList xs => !xs.isEmpty
  | .vMap m => !m.isEmpty

/-- Python `str(v)`. The scalar cases match Python exactly; rendering of
    containers is abstracted to a fixed placeholder, as no code path the
    claims touch ever renders a container (the executor only applies `str`
    to strings there) and no claim depends on that text. -/
def pyStr : Val → String
  | .vStr s => s
  | .vInt n => toString n
  | .vBool true => "True"
  | .vBool false => "False"
  | .vNone => "None"
  | .vList _ => "[...]"
  | .vMap _ => "\x7b...\x7d"

/-- A handler contribution / a node config: a Python dict with string keys
    (literal dicts in the source have pairwise distinct keys). -/
abbrev Contribution := List (String × Val)

/-- The execution context dict, as a key-to-value map. -/
abbrev Ctx := String → Option Val

/-- `config.get(k)` on a dict. -/
def cfgGet (config : Contribution) (k : String) : Option Val := config.lookup k

/-- `config.get(k, d)` on a dict. -/
def cfgGetD (config : Contribution) (k : String) (d : Val) : Val :=
  (config.lookup k).getD d

/-- `context.get(k, d)`. -/
def ctxGetD (c : Ctx) (k : String) (d : Val) : Val := (c k).getD d

/-- `context.get(k)` (default `None`). -/
def ctxGetV (c : Ctx) (k : String) : Val := (c k).getD .vNone

/-- Python `a or b` (value-returning, truthiness-based). -/
def pyOr (a b : Val) : Val := if pyTruthy a then a else b

/-- `context.update(r)`: every key of `r` overwrites, other keys survive. -/
def ctxUpdate (c : Ctx) (r : Contribution) : Ctx :=
  fun k => (r.lookup k).orElse fun _ => c k

/-- A workflow node: `{id, data: {component_type, config}}`. -/
structure Node where
  id : String
  ctype : String
  config : Contribution

/-- A workflow edge: `{id, source, target}`. -/
structure Edge where
  id : String
  source : String
  target : String

/-- A workflow graph (`workflow_data`): `{nodes, edges}`. -/
structure Graph where
  nodes : List Node
  edges : List Edge

/-- Success payload of `validate_workflow`. -/
structure ValidationSummary where
  nodes_count : Nat
  edges_count : Nat
  components : List String

/-- The distinct `ValueError`s raised by `validate_workflow` and
    `_validate_component_config`, one constructor per message shape. -/
inductive VErr where
  | noNodes
  | missingUserQuery
  | missingOutput
  | missingLLM
  | invalidEdge (source target : String)
  | cyclic
  | llmEngineMissingModel (nodeId : String)
  | llmEngineMissingApiKey (nodeId : String)
  | kbMissingApiKey (nodeId : String)
  | webMissingApiKey (nodeId : String)
deriving DecidableEq

/-- `_validate_component_config` (workflow_service.py lines 143-162).
    Note the branches test the type strings `llm_engine`, `knowledge_base`
    and `web_search`, which differ from the `llm`, `knowledgeBase` and
    `webSearch` strings used by `validate_workflow` and `_execute_node`. -/
def validateComponentConfig (node : Node) : Except VErr Unit :=
  let config := node.config
  if node.ctype == "llm_engine" then
    if !pyTruthy (cfgGetD config "model" .vNone) then
      .error (.llmEngineMissingModel node.id)
    else if !pyTruthy (cfgGetD config "apiKey" .vNone) then
      .error (.llmEngineMissingApiKey node.id)
    else .ok ()
  else if node.ctype == "knowledge_base" then
    if !pyTruthy (cfgGetD config "apiKey" .vNone) then
      .error (.kbMissingApiKey node.id)
    else .ok ()
  else if node.ctype == "web_search" then
    if !pyTruthy (cfgGetD config "apiKey" .vNone) then
      .error (.webMissingApiKey node.id)
    else .ok ()
  else .ok ()

/-- The `for node in nodes: self._validate_component_config(node)` loop:
    first raised error aborts. -/
def validateConfigs : List Node → Except VErr Unit
  | [] => .ok ()
  | n :: ns =>
    match validateComponentConfig n with
    | .error e => .error e
    | .ok _ => validateConfigs ns

/-- Adjacency of the dict built by `_has_cycles` / `_build_execution_graph`:
    targets of edges out of `v`, in edge order. Coincides with
    `graph.get(v, [])` whenever every edge source is a node id (the callers
    only reach the build after the dangling-edge check). -/
def adjOf (edges : List Edge) (v : String) : List String :=
  (edges.filter fun e => e.source == v).map fun e => e.target

/-- The `for neighbor in graph.get(node, [])` loop inside `dfs`,
    parameterized by the recursive visit (`next`) so that the whole search
    is structurally recursive on the fuel. -/
def dfsNbrsF (adj : String → List String)
    (next : String → List String → List String → Option (Bool × List String)) :
    List String → List String → List String → Option (Bool × List String)
  | [], _, black => some (false, black)
  | n :: ns, stack, black =>
    if n ∈ stack ∨ n ∈ black then
      if n ∈ stack then some (true, black)
      else dfsNbrsF adj next ns stack black
    else
      match next n stack black with
      | none => none
      | some (true, black1) => some (true, black1)
      | some (false, black1) => dfsNbrsF adj next ns stack black1

/-- The inner `dfs` of `_has_cycles`: `stack` is the recursion stack
    (`rec_stack`, most recent first), `black` the finished nodes in
    finishing order; Python's `visited` is `stack` plus `black`. Fuel
    exhaustion returns `none` (never happens with the fuel chosen below). -/
def dfsNode (adj : String → List String) :
    Nat → String → List String → List String → Option (Bool × List String)
  | 0, _, _, _ => none
  | fuel + 1, v, stack, black =>
    match dfsNbrsF adj (dfsNode adj fuel) (adj v) (v :: stack) black with
    | none => none
    | some (true, black1) => some (true, black1)
    | some (false, black1) => some (false, black1 ++ [v])


/-- The outer `for node_id in graph` loop of `_has_cycles`. -/
def hasCyclesLoop (adj : String → List String) :
    Nat → List String → List String → Option Bool
  | _, [], _ => some false
  | fuel, v :: vs, black =>
    if v ∈ black then hasCyclesLoop adj fuel vs black
    else
      match dfsNode adj fuel v [] black with
      | none => none
      | some (true, _) => some true
      | some (false, black1) => hasCyclesLoop adj fuel vs black1

/-- Fuel that provably suffices for the depth-first search. -/
def cycleFuel (nodes : List Node) (edges : List Edge) : Nat :=
  nodes.length + edges.length + 1

/-- `_has_cycles`, fuel-indexed. -/
def hasCyclesO (nodes : List Node) (edges : List Edge) : Option Bool :=
  hasCyclesLoop (adjOf edges) (cycleFuel nodes edges) (nodes.map fun n => n.id) []

/-- `_has_cycles` (workflow_service.py lines 111-141); total because the
    fuel is sufficient (proved below). -/
def hasCycles (nodes : List Node) (edges : List Edge) : Bool :=
  (hasCyclesO nodes edges).getD false

/-- `validate_workflow` (workflow_service.py lines 71-109). -/
def validateWorkflow (g : Graph) : Except VErr ValidationSummary :=
  let nodes := g.nodes
  let edges := g.edges
  if nodes.isEmpty then .error .noNodes
  else
    let componentTypes := nodes.map fun n => n.ctype
    if !componentTypes.contains "userQuery" then .error .missingUserQuery
    else if !componentTypes.contains "outputN" then .error .missingOutput
    else if !componentTypes.contains "llm" then .error .missingLLM
    else
      let nodeIds := nodes.map fun n => n.id
      match edges.find? (fun e =>
          !(nodeIds.contains e.source && nodeIds.contains e.target)) with
      | some e => .error (.invalidEdge e.source e.target)
      | none =>
        if hasCycles nodes edges then .error .cyclic
        else
          match validateConfigs nodes with
          | .error e => .error e
          | .ok _ =>
            .ok { nodes_count := nodes.length
                  edges_count := edges.length
                  components := componentTypes }

/-! ## External capabilities -/

/-- Result of `embedding_service.validate_document_for_embeddings`. -/
structure EmbValidation where
  valid : Bool
  existing : Nat

/-- One row of `embedding_service.search_similar`. -/
structure Chunk where
  document_id : Val
  document_name : String
  chunk_text : String
  similarity_score : Val

/-- One row of `web_search_service.search` / `search_news`. -/
structure WebResult where
  title : String
  snippet : String

/-- The external capabilities consumed by the handlers (embedding store,
    language model, web search), modelled as pure fallible functions.
    Arguments are passed through opaquely as `Val`s exactly as the Python
    call sites forward them. -/
structure Caps where
  embValidate : Val → Except String EmbValidation
  embGenerate : Val → Val → Val → Val → Except String Unit
  embSearch : Val → Val → Option (List Val) → Val → Except String (List Chunk)
  llmGenerate : Val → Val → Val → Option Val → Except String String
  webSearch : Val → Val → Val → Except String (List WebResult)
  webSearchNews : Val → Val → Val → Except String (List WebResult)

/-- Python `s.strip() == ""`: every character is whitespace (or the string
    is empty). -/
def pyIsBlank (s : String) : Bool :=
  s.toList.all fun c => c.isWhitespace

/-- Python `float(x)` succeeds on a string literal: approximation of the
    accepted literal syntax (no claim depends on which strings parse). -/
def strFloatLit (s : String) : Bool :=
  let t := s.toList.filter fun c => !c.isWhitespace
  !t.isEmpty && t.all fun c =>
    c.isDigit || c == '.' || c == '+' || c == '-' || c == 'e' || c == 'E'

/-- Whether Python `float(v)` succeeds (`float(True)` and `float(3)` do;
    `float(None)`, lists and dicts raise `TypeError`). -/
def pyFloatable : Val → Bool
  | .vStr s => strFloatLit s
  | .vInt _ => true
  | .vBool _ => true
  | .vNone => false
  | .vList _ => false
  | .vMap _ => false

/-- Python `v == "lit"` for an arbitrary value against a string literal. -/
def pyValEqStr (v : Val) (s : String) : Bool :=
  match v with
  | .vStr t => t == s
  | _ => false

/-! ## Component handlers -/

/-- The `userQuery` branch of `_execute_node`: `context["user_query"]`
    raises `KeyError` when absent. -/
def execUserQuery (ctx : Ctx) : Except String Contribution :=
  match ctx "user_query" with
  | none => .error "KeyError: user_query"
  | some v => .ok [("query", v)]

/-- `doc["id"]` for each entry of `config.get("selectedDocuments", [])`;
    runs before the try block of `_execute_knowledge_base`, so a failure
    here propagates out of the handler. -/
def extractDocIdsList : List Val → Except String (List Val)
  | [] => .ok []
  | .vMap m :: xs =>
    match m.lookup "id" with
    | some i => (extractDocIdsList xs).map fun rest => i :: rest
    | none => .error "KeyError: id"
  | _ :: _ => .error "TypeError: doc is not a dict"

/-- `[doc["id"] for doc in selectedDocuments]` (line 282). -/
def extractDocIds : Val → Except String (List Val)
  | .vList xs => extractDocIdsList xs
  | _ => .error "TypeError: selectedDocuments is not a list"

/-- Lines 292-299 of `_execute_knowledge_base`: collect the document ids
    whose embeddings are reported missing by the embedding capability
    (`not validation.get("valid") or validation.get("existing_embeddings", 0) == 0`). -/
def kbMissing (caps : Caps) : List Val → Except String (List Val)
  | [] => .ok []
  | d :: ds =>
    match caps.embValidate d with
    | .error e => .error e
    | .ok v =>
      match kbMissing caps ds with
      | .error e => .error e
      | .ok ms => .ok (if !v.valid || v.existing == 0 then d :: ms else ms)

/-- Lines 302-309: generate embeddings for each missing document. -/
def kbGenAll (caps : Caps) (model chunkSize chunkOverlap : Val) :
    List Val → Except String Unit
  | [] => .ok ()
  | d :: ds =>
    match caps.embGenerate d model chunkSize chunkOverlap with
    | .error e => .error e
    | .ok _ => kbGenAll caps model chunkSize chunkOverlap ds

/-- `chunk_text[:200] + "..." if len(chunk_text) > 200 else chunk_text`. -/
def truncateChunk (t : String) : String :=
  if t.length > 200 then t.take 200 ++ "..." else t

/-- The try block of `_execute_knowledge_base` (lines 287-338): check which
    selected documents lack embeddings, generate exactly for those, then
    run the similarity search and format the contribution. -/
def kbAttempt (config : Contribution) (ctx : Ctx) (caps : Caps)
    (document_ids : List Val) : Except String Contribution :=
  let user_query := ctxGetD ctx "user_query" (.vStr "")
  let top_k := cfgGetD config "top_k" (.vInt 5)
  let model := cfgGetD config "model" (.vStr "openai/text-embedding-3-large")
  let chunkSize := cfgGetD config "chunkSize" (.vInt 1000)
  let chunkOverlap := cfgGetD config "chunkOverlap" (.vInt 200)
  match kbMissing caps document_ids with
  | .error e => .error e
  | .ok missing =>
    match kbGenAll caps model chunkSize chunkOverlap missing with
    | .error e => .error e
    | .ok _ =>
      match caps.embSearch user_query top_k
          (if !document_ids.isEmpty then some document_ids else none) model with
      | .error e => .error e
      | .ok results =>
        let relevant := String.intercalate "\n\n" (results.map fun r =>
          "Document: " ++ r.document_name ++ "\nContent: " ++ r.chunk_text)
        .ok [("knowledge_context", .vStr relevant),
             ("sources", .vList (results.map fun r =>
               .vMap [("document_id", r.document_id),
                      ("document_name", .vStr r.document_name),
                      ("similarity_score", r.similarity_score),
                      ("chunk_text", .vStr (truncateChunk r.chunk_text))]))]

/-- `_execute_knowledge_base` (lines 279-341). Failures inside the try
    block are converted into an empty soft-fail contribution carrying the
    error message; a failure extracting document ids propagates. -/
def execKB (config : Contribution) (ctx : Ctx) (caps : Caps) :
    Except String Contribution :=
  match extractDocIds (cfgGetD config "selectedDocuments" (.vList [])) with
  | .error e => .error e
  | .ok document_ids =>
    match kbAttempt config ctx caps document_ids with
    | .ok r => .ok r
    | .error e =>
      .ok [("knowledge_context", .vStr ""), ("sources", .vList []),
           ("error", .vStr e)]

/-- `float(config.get("temperature", 0.7))` (line 351): the default is a
    float already, a configured value must be convertible or the handler
    raises outside any try block. -/
def checkTemperature (v : Option Val) : Except String Unit :=
  match v with
  | none => .ok ()
  | some v => if pyFloatable v then .ok () else .error "ValueError: could not convert to float"

/-- `api_key if api_key and api_key.startswith("gh") else None` (line 358):
    a truthy non-string apiKey raises `AttributeError` outside any try. -/
def checkApiKeyStartswith (a : Option Val) : Except String Unit :=
  match a with
  | none => .ok ()
  | some v =>
    if pyTruthy v then
      match v with
      | .vStr _ => .ok ()
      | _ => .error "AttributeError: startswith"
    else .ok ()

/-- The fixed apology substituted for an empty language-model response. -/
def apologyString : String :=
  "I apologize, but I couldn't generate a response. Please try again."

/-- `system_prompt = custom_prompt if custom_prompt else "You are a helpful
    AI assistant."` (line 362). -/
def llmSystemPrompt (config : Contribution) : Val :=
  if pyTruthy (cfgGetD config "prompt" (.vStr "")) then
    cfgGetD config "prompt" (.vStr "")
  else .vStr "You are a helpful AI assistant."

/-- Lines 364-366: the user prompt, with the knowledge context prefixed
    when present. -/
def llmBasePrompt (ctx : Ctx) : Val :=
  let user_query := ctxGetD ctx "user_query" (.vStr "")
  let knowledge_context := ctxGetD ctx "knowledge_context" (.vStr "")
  if pyTruthy knowledge_context then
    .vStr ("Context:\n" ++ pyStr knowledge_context ++ "\n\nQuestion: " ++
      pyStr user_query)
  else user_query

/-- Lines 368-381: optional web-search enrichment of the user prompt. The
    whole section is inside a try whose failure is swallowed, including
    the `+=` TypeError when the prompt is not a string. -/
def llmWebPrompt (config : Contribution) (ctx : Ctx) (caps : Caps) (p : Val) : Val :=
  if pyTruthy (cfgGetD config "webSearchEnabled" (.vBool false)) then
    match caps.webSearch (ctxGetD ctx "user_query" (.vStr "")) (.vInt 5)
        (.vStr "SerpAPI") with
    | .error _ => p
    | .ok ws =>
      if !ws.isEmpty then
        let webCtx := "\n\nWeb Search Results:\n" ++
          String.intercalate "\n" ((ws.take 3).map fun r =>
            "- " ++ r.title ++ ": " ++ r.snippet)
        match p with
        | .vStr s => .vStr (s ++ webCtx)
        | _ => p
      else p
  else p

/-- `_execute_llm_engine` (lines 344-409). The generation call is inside
    the second try, whose failure produces the error-prefixed response;
    an empty or blank generated text is replaced by the fixed apology. -/
def execLLM (config : Contribution) (ctx : Ctx) (caps : Caps) :
    Except String Contribution :=
  let model := cfgGetD config "model" (.vStr "")
  let use_web_search := cfgGetD config "webSearchEnabled" (.vBool false)
  match checkTemperature (cfgGet config "temperature") with
  | .error e => .error e
  | .ok _ =>
  match checkApiKeyStartswith (cfgGet config "apiKey") with
  | .error e => .error e
  | .ok _ =>
    match caps.llmGenerate (llmSystemPrompt config)
        (llmWebPrompt config ctx caps (llmBasePrompt ctx)) model
        (cfgGet config "temperature") with
    | .ok response =>
      let response :=
        if response == "" || pyIsBlank response then apologyString
        else response
      .ok [("llm_response", .vStr response), ("model_used", model),
           ("web_search_used", use_web_search)]
    | .error e =>
      .ok [("llm_response", .vStr ("Error generating response: " ++ e)),
           ("model_used", model), ("web_search_used", use_web_search)]

/-- `_execute_web_search` (lines 411-442): everything fallible sits inside
    the try, so this handler never propagates an error. -/
def execWeb (config : Contribution) (ctx : Ctx) (caps : Caps) :
    Except String Contribution :=
  let user_query := ctxGetD ctx "user_query" (.vStr "")
  let num_results := cfgGetD config "numResults" (.vInt 5)
  let search_api := cfgGetD config "searchAPI" (.vStr "SerpAPI")
  let attempt :=
    if pyValEqStr (cfgGetD config "searchType" .vNone) "news" then
      caps.webSearchNews user_query num_results search_api
    else
      caps.webSearch user_query num_results search_api
  match attempt with
  | .ok results =>
    let web_context := String.intercalate "\n" (results.map fun r =>
      "- " ++ r.title ++ ": " ++ r.snippet)
    .ok [("web_context", .vStr web_context),
         ("web_results", .vList (results.map fun r =>
           .vMap [("title", .vStr r.title), ("snippet", .vStr r.snippet)]))]
  | .error _ => .ok [("web_context", .vStr ""), ("web_results", .vList [])]

/-- The fixed string the output component substitutes for an empty response. -/
def noResponseString : String := "No response was generated. Please try again."

/-- `_execute_output` (lines 444-464); infallible. -/
def execOutput (config : Contribution) (ctx : Ctx) : Contribution :=
  let llm_response := ctxGetD ctx "llm_response" (.vStr "")
  let sources := ctxGetD ctx "sources" (.vList [])
  let llm_response :=
    if !pyTruthy llm_response || pyIsBlank (pyStr llm_response) then
      .vStr noResponseString
    else llm_response
  [("response", .vStr (pyStr llm_response)),
   ("sources", sources),
   ("metadata", .vMap [("model_used", ctxGetV ctx "model_used"),
                       ("web_search_used", ctxGetD ctx "web_search_used" (.vBool false))])]

/-- The dispatch at the top of `_execute_node` (lines 244-263). -/
def runHandler (node : Node) (ctx : Ctx) (caps : Caps) :
    Except String Contribution :=
  let component_type := node.ctype
  let config := node.config
  if component_type == "userQuery" then execUserQuery ctx
  else if component_type == "knowledgeBase" then execKB config ctx caps
  else if component_type == "llm" then execLLM config ctx caps
  else if component_type == "webSearch" then execWeb config ctx caps
  else if component_type == "outputN" then .ok (execOutput config ctx)
  else .error ("Unknown component type: " ++ component_type)

/-! ## Traversal -/

/-- Traversal state: the shared mutable `context` dict plus two ghost
    traces used by the theorems: `execTrace` records each handler run (in
    execution order, with the node id), `applyTrace` records each
    `context.update(...)` application (in application order, including the
    re-application a parent performs after each child subtree returns). -/
structure ExecSt where
  ctx : Ctx
  execTrace : List (String × Contribution)
  applyTrace : List Contribution

/-- One `context.update(r)` call. -/
def applyContrib (st : ExecSt) (r : Contribution) : ExecSt :=
  { st with ctx := ctxUpdate st.ctx r, applyTrace := st.applyTrace ++ [r] }

/-- The `for next_node_id in next_node_ids` loop (lines 269-276): look up
    the first node with the successor id (skipping unknown ids), execute
    it (`next`, the recursive node visit at lower fuel), then
    `context.update(next_result)` with its own contribution. -/
def execChildrenF (nodes : List Node)
    (next : Node → ExecSt → Option (Except String (ExecSt × Contribution))) :
    List String → ExecSt → Option (Except String ExecSt)
  | [], st => some (.ok st)
  | nid :: rest, st =>
    match nodes.find? (fun n => n.id == nid) with
    | none => execChildrenF nodes next rest st
    | some nd =>
      match next nd st with
      | none => none
      | some (.error e) => some (.error e)
      | some (.ok (st1, r1)) => execChildrenF nodes next rest (applyContrib st1 r1)

/-- `_execute_node` (lines 242-278), fuel-indexed: run the handler, merge
    its contribution, then recurse into the successors with the updated
    context, re-merging each successor's own contribution afterwards. -/
def execNode (adj : String → List String) (nodes : List Node) (caps : Caps) :
    Nat → Node → ExecSt → Option (Except String (ExecSt × Contribution))
  | 0, _, _ => none
  | fuel + 1, node, st =>
    match runHandler node st.ctx caps with
    | .error e => some (.error e)
    | .ok r =>
      let st1 := applyContrib { st with execTrace := st.execTrace ++ [(node.id, r)] } r
      match execChildrenF nodes (execNode adj nodes caps fuel) (adj node.id) st1 with
      | none => none
      | some (.error e) => some (.error e)
      | some (.ok st2) => some (.ok (st2, r))


/-- `_build_execution_graph` (lines 231-240): raises `KeyError` when an
    edge source is not a node id, otherwise the adjacency dict. -/
def buildExecutionGraph (nodes : List Node) (edges : List Edge) :
    Except String (String → List String) :=
  if edges.all (fun e => (nodes.map fun n => n.id).contains e.source) then
    .ok (adjOf edges)
  else .error "KeyError: edge source is not a node id"

/-- The `{response, llm_response, sources, metadata}` payload returned by
    `_execute_workflow_logic`. -/
structure WResult where
  response : Val
  llm_response : Val
  sources : Val
  metadata : Val

/-- Full observable outcome of `_execute_workflow_logic`: the returned
    payload plus the final traversal state and the entry node's own
    contribution (`result` in the Python), for stating theorems. -/
structure LogicOut where
  res : WResult
  st : ExecSt
  startResult : Contribution

/-- Fuel that provably suffices for acyclic graphs (and runs out exactly
    when the Python recursion would never return). -/
def execFuel (g : Graph) : Nat := g.nodes.length + 1

/-- `context = {"user_query": user_query}` (line 216). -/
def seedCtx (q : String) : Ctx :=
  fun k => if k == "user_query" then some (.vStr q) else none

/-- The traversal state at the start of `_execute_workflow_logic`. -/
def initSt (q : String) : ExecSt :=
  { ctx := seedCtx q, execTrace := [], applyTrace := [] }

/-- `_execute_workflow_logic` (lines 197-228). -/
def runWorkflowLogic (g : Graph) (q : String) (caps : Caps) :
    Option (Except String LogicOut) :=
  match buildExecutionGraph g.nodes g.edges with
  | .error e => some (.error e)
  | .ok adj =>
    match g.nodes.find? (fun n => n.ctype == "userQuery") with
    | none => some (.error "No user query component found")
    | some startNode =>
      match execNode adj g.nodes caps (execFuel g) startNode (initSt q) with
      | none => none
      | some (.error e) => some (.error e)
      | some (.ok (st, result)) =>
        let finalResponse :=
          pyOr (ctxGetV st.ctx "response")
            (pyOr (ctxGetV st.ctx "llm_response")
              ((result.lookup "response").getD .vNone))
        some (.ok
          { res := { response := finalResponse
                     llm_response := ctxGetV st.ctx "llm_response"
                     sources := ctxGetD st.ctx "sources" (.vList [])
                     metadata := ctxGetD st.ctx "metadata" (.vMap []) }
            st := st
            startResult := result })

/-- The observable slice of the `WorkflowExecution` record mutated by
    `execute_workflow`. -/
structure RunRecord where
  status : String
  result : Option WResult
  logsError : Option String

/-- `execute_workflow` (lines 164-195) for an existing workflow: the try
    block converts any raised error into a `failed` record with
    `execution_logs = {"error": ...}`; nothing escapes. -/
def executeWorkflow (g : Graph) (q : String) (caps : Caps) : Option RunRecord :=
  match runWorkflowLogic g q caps with
  | none => none
  | some (.error e) => some { status := "failed", result := none, logsError := some e }
  | some (.ok out) => some { status := "completed", result := some out.res, logsError := none }

/-! ## Directed-walk infrastructure

The node/edge set viewed as a digraph: `stepRel adj a b` holds when `b` is
a successor of `a` in the adjacency structure, and a directed cycle
(self-loops included) is a nonempty step sequence from a vertex to itself. -/

/-- One adjacency step of the digraph. -/
def stepRel (adj : String → List String) (a b : String) : Prop := b ∈ adj a

/-- The digraph contains a directed cycle (a self-loop being the length-one
    case). -/
def HasCycleRel (adj : String → List String) : Prop :=
  ∃ v, Relation.TransGen (stepRel adj) v v

section WalkLemmas

variable {α : Type} {r : α → α → Prop}

lemma chain_append_transGen :
    ∀ (l : List α) (a b : α), List.Chain r a (l ++ [b]) → Relation.TransGen r a b := by
  intro l
  induction l with
  | nil =>
    intro a b h
    rw [List.nil_append, List.chain_singleton] at h
    exact Relation.TransGen.single h
  | cons c l ih =>
    intro a b h
    rw [List.cons_append, List.chain_cons] at h
    exact Relation.TransGen.head h.1 (ih c b h.2)

lemma chain_flip_mem_reflTransGen :
    ∀ (t : List α) (h : α), List.Chain (fun x y => r y x) h t →
      ∀ n ∈ h :: t, Relation.ReflTransGen r n h := by
  intro t
  induction t with
  | nil =>
    intro h _ n hn
    rw [List.mem_singleton] at hn
    exact hn ▸ Relation.ReflTransGen.refl
  | cons h2 t2 ih =>
    intro h hch n hn
    rw [List.chain_cons] at hch
    rcases List.mem_cons.mp hn with rfl | hn2
    · exact Relation.ReflTransGen.refl
    · exact Relation.ReflTransGen.tail (ih h2 hch.2 n hn2) hch.1

lemma not_nodup_decomp :
    ∀ (l : List α), ¬ l.Nodup →
      ∃ (l₁ : List α) (a : α) (l₂ : List α) (l₃ : List α),
        l = l₁ ++ a :: (l₂ ++ a :: l₃) := by
  intro l
  induction l with
  | nil => intro h; exact absurd List.nodup_nil h
  | cons x xs ih =>
    intro h
    rw [List.nodup_cons] at h
    by_cases hx : x ∈ xs
    · rcases List.append_of_mem hx with ⟨s, t, rfl⟩
      exact ⟨[], x, s, t, rfl⟩
    · have hxs : ¬ xs.Nodup := fun hn => h ⟨hx, hn⟩
      rcases ih hxs with ⟨l₁, a, l₂, l₃, rfl⟩
      exact ⟨x :: l₁, a, l₂, l₃, rfl⟩

lemma cycle_of_chain_dup {v : α} {l : List α}
    (hch : List.Chain r v l) (hd : ¬ (v :: l).Nodup) :
    ∃ u, Relation.TransGen r u u := by
  rcases not_nodup_decomp (v :: l) hd with ⟨l₁, a, l₂, l₃, heq⟩
  cases l₁ with
  | nil =>
    rw [List.nil_append] at heq
    obtain ⟨rfl, rfl⟩ : v = a ∧ l = l₂ ++ a :: l₃ := by
      constructor
      · exact (List.cons.injEq _ _ _ _ ▸ heq).1
      · exact (List.cons.injEq _ _ _ _ ▸ heq).2
    have h2 := (List.chain_split.mp hch).1
    exact ⟨v, chain_append_transGen l₂ v v h2⟩
  | cons x l₁ =>
    obtain ⟨rfl, hl⟩ : v = x ∧ l = l₁ ++ a :: (l₂ ++ a :: l₃) := by
      rw [List.cons_append] at heq
      exact ⟨(List.cons.injEq _ _ _ _ ▸ heq).1, (List.cons.injEq _ _ _ _ ▸ heq).2⟩
    rw [hl] at hch
    have h2 := (List.chain_split.mp hch).2
    have h3 := (List.chain_split.mp h2).1
    exact ⟨a, chain_append_transGen l₂ a a h3⟩

lemma chain_mem_of_closure {U : List α} (hcl : ∀ a b, r a b → b ∈ U) :
    ∀ (l : List α) (v : α), List.Chain r v l → ∀ x ∈ l, x ∈ U := by
  intro l
  induction l with
  | nil => intro v _ x hx; exact absurd hx (List.not_mem_nil x)
  | cons c l ih =>
    intro v hch x hx
    rw [List.chain_cons] at hch
    rcases List.mem_cons.mp hx with rfl | hx2
    · exact hcl v x hch.1
    · exact ih c hch.2 x hx2

lemma chain_length_lt [DecidableEq α] {U : List α} (hcl : ∀ a b, r a b → b ∈ U)
    (hacyc : ¬ ∃ u, Relation.TransGen r u u) {v : α} (hv : v ∈ U) :
    ∀ l, List.Chain r v l → l.length < U.length := by
  intro l hch
  have hnodup : (v :: l).Nodup := by
    by_contra hnd
    exact hacyc (cycle_of_chain_dup hch hnd)
  have hsub : ∀ x ∈ v :: l, x ∈ U := by
    intro x hx
    rcases List.mem_cons.mp hx with rfl | hx2
    · exact hv
    · exact chain_mem_of_closure hcl l v hch x hx2
  have hcard : (v :: l).length ≤ U.length := by
    calc (v :: l).length = (v :: l).toFinset.card :=
          (List.toFinset_card_of_nodup hnodup).symm
      _ ≤ U.toFinset.card := by
          apply Finset.card_le_card
          intro x hx
          rw [List.mem_toFinset] at hx ⊢
          exact hsub x hx
      _ ≤ U.length := List.toFinset_card_le U
  simpa [List.length_cons, Nat.succ_le_iff] using hcard

end WalkLemmas

/-! ## Fuel sufficiency of the cycle-detection search -/

/-- Vertices every step lands in: node ids plus edge targets. -/
def cycleUniverse (nodes : List Node) (edges : List Edge) : List String :=
  (nodes.map fun n => n.id) ++ (edges.map fun e => e.target)

lemma adjOf_subset_targets {edges : List Edge} {a b : String}
    (h : b ∈ adjOf edges a) : b ∈ edges.map fun e => e.target := by
  rcases List.mem_map.mp h with ⟨e, he, rfl⟩
  exact List.mem_map.mpr ⟨e, List.mem_of_mem_filter he, rfl⟩

lemma stepRel_adjOf {edges : List Edge} {a b : String} :
    stepRel (adjOf edges) a b ↔ ∃ e ∈ edges, e.source = a ∧ e.target = b := by
  unfold stepRel adjOf
  constructor
  · intro h
    rcases List.mem_map.mp h with ⟨e, he, rfl⟩
    rcases List.mem_filter.mp he with ⟨hmem, hsrc⟩
    exact ⟨e, hmem, by simpa using hsrc, rfl⟩
  · rintro ⟨e, he, hsrc, rfl⟩
    exact List.mem_map.mpr ⟨e, List.mem_filter.mpr ⟨he, by simpa using hsrc⟩, rfl⟩

/-- Number of universe vertices not yet visited (visited = stack + black). -/
def dfsRemaining (U stack black : List String) : Nat :=
  (U.toFinset \ (stack ++ black).toFinset).card

lemma dfsRemaining_pos {U stack black : List String} {v : String}
    (hU : v ∈ U) (hs : v ∉ stack) (hb : v ∉ black) :
    1 ≤ dfsRemaining U stack black := by
  apply Finset.card_pos.mpr
  refine ⟨v, Finset.mem_sdiff.mpr ⟨List.mem_toFinset.mpr hU, ?_⟩⟩
  rw [List.mem_toFinset]
  intro hmem
  rcases List.mem_append.mp hmem with h | h
  · exact hs h
  · exact hb h

lemma dfsRemaining_push {U stack black : List String} {v : String}
    (hU : v ∈ U) (hs : v ∉ stack) (hb : v ∉ black) :
    dfsRemaining U (v :: stack) black = dfsRemaining U stack black - 1 := by
  unfold dfsRemaining
  have h1 : ((v :: stack) ++ black).toFinset
      = insert v ((stack ++ black).toFinset) := by
    simp [List.cons_append]
  rw [h1, Finset.sdiff_insert, Finset.card_erase_of_mem]
  refine Finset.mem_sdiff.mpr ⟨List.mem_toFinset.mpr hU, ?_⟩
  rw [List.mem_toFinset]
  intro hmem
  rcases List.mem_append.mp hmem with h | h
  · exact hs h
  · exact hb h

lemma dfsRemaining_anti {U stack black black1 : List String}
    (hsub : ∀ x ∈ black, x ∈ black1) :
    dfsRemaining U stack black1 ≤ dfsRemaining U stack black := by
  apply Finset.card_le_card
  apply Finset.sdiff_subset_sdiff (le_refl _)
  intro x hx
  rw [List.mem_toFinset] at hx ⊢
  rcases List.mem_append.mp hx with h | h
  · exact List.mem_append.mpr (Or.inl h)
  · exact List.mem_append.mpr (Or.inr (hsub x h))

/-- Fuel-sufficiency statement for one `dfs` call. -/
def DfsFuelNode (adj : String → List String) (U : List String) (fuel : Nat) : Prop :=
  ∀ v stack black, v ∈ U → v ∉ stack → v ∉ black →
    dfsRemaining U stack black ≤ fuel →
    ∃ res, dfsNode adj fuel v stack black = some res ∧
      ∀ b1, res = (false, b1) → ∃ d, b1 = black ++ d

/-- Fuel-sufficiency statement for the neighbour loop. -/
def DfsFuelNbrs (adj : String → List String) (U : List String) (fuel : Nat) : Prop :=
  ∀ ns stack black, (∀ n ∈ ns, n ∈ U) →
    dfsRemaining U stack black ≤ fuel →
    ∃ res, dfsNbrsF adj (dfsNode adj fuel) ns stack black = some res ∧
      ∀ b1, res = (false, b1) → ∃ d, b1 = black ++ d

lemma dfs_fuel_nbrs_of_node {adj : String → List String} {U : List String}
    (fuel : Nat) (hP : DfsFuelNode adj U fuel) : DfsFuelNbrs adj U fuel := by
  intro ns
  induction ns with
  | nil =>
    intro stack black hns hcard
    refine ⟨(false, black), by simp [dfsNbrsF], ?_⟩
    intro b1 h
    have hb1 : black = b1 := (Prod.mk.injEq _ _ _ _ ▸ h).2
    exact ⟨[], by rw [List.append_nil]; exact hb1.symm⟩
  | cons n rest ih =>
    intro stack black hns hcard
    by_cases hv : n ∈ stack ∨ n ∈ black
    · by_cases hs : n ∈ stack
      · refine ⟨(true, black), ?_, ?_⟩
        · simp [dfsNbrsF, hv, hs]
        · intro b1 h
          exact absurd (Prod.mk.injEq _ _ _ _ ▸ h).1 (by simp)
      · have hb : n ∈ black := hv.resolve_left hs
        obtain ⟨res, hres, hg⟩ :=
          ih stack black (fun m hm => hns m (List.mem_cons_of_mem n hm)) hcard
        exact ⟨res, by simp [dfsNbrsF, hv, hs, hb, hres], hg⟩
    · push_neg at hv
      obtain ⟨res1, hres1, hg1⟩ :=
        hP n stack black (hns n (List.mem_cons_self n rest)) hv.1 hv.2 hcard
      obtain ⟨b, black1⟩ := res1
      cases b with
      | true =>
        refine ⟨(true, black1), ?_, ?_⟩
        · have hcond : ¬ (n ∈ stack ∨ n ∈ black) := fun h => h.elim hv.1 hv.2
          simp [dfsNbrsF, hcond, hres1]
        · intro b1 h
          exact absurd (Prod.mk.injEq _ _ _ _ ▸ h).1 (by simp)
      | false =>
        obtain ⟨d, rfl⟩ := hg1 black1 rfl
        obtain ⟨res2, hres2, hg2⟩ :=
          ih stack (black ++ d) (fun m hm => hns m (List.mem_cons_of_mem n hm))
            (le_trans (dfsRemaining_anti fun x hx => List.mem_append.mpr (Or.inl hx)) hcard)
        refine ⟨res2, ?_, ?_⟩
        · have hcond : ¬ (n ∈ stack ∨ n ∈ black) := fun h => h.elim hv.1 hv.2
          simp [dfsNbrsF, hcond, hres1, hres2]
        · intro b1 h
          rcases hg2 b1 h with ⟨d2, rfl⟩
          exact ⟨d ++ d2, by rw [List.append_assoc]⟩

lemma dfs_fuel_node {adj : String → List String} {U : List String}
    (hcl : ∀ a b, b ∈ adj a → b ∈ U) :
    ∀ fuel, DfsFuelNode adj U fuel := by
  intro fuel
  induction fuel with
  | zero =>
    intro v stack black hvU hvs hvb hcard
    exact absurd (le_trans (dfsRemaining_pos hvU hvs hvb) hcard) (by omega)
  | succ f ih =>
    have hQ := dfs_fuel_nbrs_of_node f ih
    intro v stack black hvU hvs hvb hcard
    have hcard1 : dfsRemaining U (v :: stack) black ≤ f := by
      have h1 := dfsRemaining_pos hvU hvs hvb
      rw [dfsRemaining_push hvU hvs hvb]
      omega
    obtain ⟨res, hres, hg⟩ :=
      hQ (adj v) (v :: stack) black (fun n hn => hcl v n hn) hcard1
    obtain ⟨b, black1⟩ := res
    cases b with
    | true =>
      refine ⟨(true, black1), by simp [dfsNode, hres], ?_⟩
      intro b1 h
      exact absurd (Prod.mk.injEq _ _ _ _ ▸ h).1 (by simp)
    | false =>
      obtain ⟨d, rfl⟩ := hg black1 rfl
      refine ⟨(false, (black ++ d) ++ [v]), by simp [dfsNode, hres], ?_⟩
      intro b1 h
      have hb1 : black ++ d ++ [v] = b1 := (Prod.mk.injEq _ _ _ _ ▸ h).2
      exact ⟨d ++ [v], by rw [← hb1, List.append_assoc]⟩

lemma hasCyclesLoop_isSome {adj : String → List String} {U : List String}
    (hcl : ∀ a b, b ∈ adj a → b ∈ U) :
    ∀ vs fuel black, (∀ v ∈ vs, v ∈ U) →
      (U.toFinset \ black.toFinset).card ≤ fuel →
      ∃ b, hasCyclesLoop adj fuel vs black = some b := by
  intro vs
  induction vs with
  | nil => intro fuel black _ _; exact ⟨false, by simp [hasCyclesLoop]⟩
  | cons v rest ih =>
    intro fuel black hvs hcard
    by_cases hb : v ∈ black
    · obtain ⟨b, hb1⟩ := ih fuel black (fun x hx => hvs x (List.mem_cons_of_mem v hx)) hcard
      exact ⟨b, by simp [hasCyclesLoop, hb, hb1]⟩
    · have hcard0 : dfsRemaining U [] black ≤ fuel := by
        unfold dfsRemaining
        simpa using hcard
      obtain ⟨res, hres, hg⟩ :=
        dfs_fuel_node hcl fuel v [] black (hvs v (List.mem_cons_self v rest))
          (List.not_mem_nil v) hb hcard0
      obtain ⟨bb, black1⟩ := res
      cases bb with
      | true => exact ⟨true, by simp [hasCyclesLoop, hb, hres]⟩
      | false =>
        obtain ⟨d, rfl⟩ := hg black1 rfl
        have hcard2 : (U.toFinset \ (black ++ d).toFinset).card ≤ fuel := by
          refine le_trans ?_ hcard
          apply Finset.card_le_card
          apply Finset.sdiff_subset_sdiff (le_refl _)
          intro x hx
          rw [List.mem_toFinset] at hx ⊢
          exact List.mem_append.mpr (Or.inl hx)
        obtain ⟨b, hb1⟩ :=
          ih fuel (black ++ d) (fun x hx => hvs x (List.mem_cons_of_mem v hx)) hcard2
        exact ⟨b, by simp [hasCyclesLoop, hb, hres, hb1]⟩

/-- The fuel passed by `hasCyclesO` is always sufficient: Python's
    `_has_cycles` terminates on every input the callers can reach. -/
lemma hasCyclesO_isSome (nodes : List Node) (edges : List Edge) :
    ∃ b, hasCyclesO nodes edges = some b := by
  apply hasCyclesLoop_isSome (U := cycleUniverse nodes edges)
  · intro a b hb
    exact List.mem_append.mpr (Or.inr (adjOf_subset_targets hb))
  · intro v hv
    exact List.mem_append.mpr (Or.inl hv)
  · calc ((cycleUniverse nodes edges).toFinset \ ([] : List String).toFinset).card
        = (cycleUniverse nodes edges).toFinset.card := by simp
      _ ≤ (cycleUniverse nodes edges).length := List.toFinset_card_le _
      _ ≤ cycleFuel nodes edges := by
          simp [cycleUniverse, cycleFuel]

lemma hasCycles_eq_some (nodes : List Node) (edges : List Edge) :
    hasCyclesO nodes edges = some (hasCycles nodes edges) := by
  obtain ⟨b, hb⟩ := hasCyclesO_isSome nodes edges
  rw [hasCycles, hb]
  rfl

/-! ## Soundness of the cycle detection: a reported cycle exists -/

/-- Invariant of the recursion stack: consecutive entries are linked by a
    step from the older entry to the newer one. -/
def stackOK (adj : String → List String) : List String → Prop
  | [] => True
  | h :: t => List.Chain (fun x y => stepRel adj y x) h t

lemma stackOK_push {adj : String → List String} {v : String} {stack : List String}
    (hst : stackOK adj stack)
    (hhd : ∀ h t, stack = h :: t → stepRel adj h v) : stackOK adj (v :: stack) := by
  cases stack with
  | nil => exact List.Chain.nil
  | cons h t => exact List.Chain.cons (hhd h t rfl) hst

lemma stackOK_cycle {adj : String → List String} {c n : String} {srest : List String}
    (hst : stackOK adj (c :: srest)) (hmem : n ∈ c :: srest)
    (hstep : stepRel adj c n) : HasCycleRel adj :=
  ⟨n, Relation.TransGen.tail' (chain_flip_mem_reflTransGen srest c hst n hmem) hstep⟩

/-- Soundness statement for one `dfs` call. -/
def DfsSoundNode (adj : String → List String) (fuel : Nat) : Prop :=
  ∀ v stack black b1, stackOK adj stack →
    (∀ h t, stack = h :: t → stepRel adj h v) →
    dfsNode adj fuel v stack black = some (true, b1) → HasCycleRel adj

/-- Soundness statement for the neighbour loop. -/
def DfsSoundNbrs (adj : String → List String) (fuel : Nat) : Prop :=
  ∀ ns c srest black b1, stackOK adj (c :: srest) →
    (∀ n ∈ ns, stepRel adj c n) →
    dfsNbrsF adj (dfsNode adj fuel) ns (c :: srest) black = some (true, b1) → HasCycleRel adj

lemma dfs_sound_nbrs_of_node {adj : String → List String} (fuel : Nat)
    (hP : DfsSoundNode adj fuel) : DfsSoundNbrs adj fuel := by
  intro ns
  induction ns with
  | nil =>
    intro c srest black b1 _ _ h
    simp [dfsNbrsF] at h
  | cons n rest ih =>
    intro c srest black b1 hst hns h
    by_cases hv : n ∈ c :: srest ∨ n ∈ black
    · by_cases hs : n ∈ c :: srest
      · exact stackOK_cycle hst hs (hns n (List.mem_cons_self n rest))
      · have hb : n ∈ black := hv.resolve_left hs
        simp only [dfsNbrsF] at h
        rw [if_pos hv, if_neg hs] at h
        exact ih c srest black b1 hst
          (fun m hm => hns m (List.mem_cons_of_mem n hm)) h
    · simp only [dfsNbrsF] at h
      rw [if_neg hv] at h
      cases hdn : dfsNode adj fuel n (c :: srest) black with
      | none => rw [hdn] at h; simp at h
      | some res =>
        obtain ⟨b, black1⟩ := res
        cases b with
        | true =>
          exact hP n (c :: srest) black black1 hst
            (fun h2 t2 he => by
              rw [List.cons.injEq] at he
              exact he.1 ▸ hns n (List.mem_cons_self n rest)) hdn
        | false =>
          rw [hdn] at h
          simp at h
          exact ih c srest black1 b1 hst
            (fun m hm => hns m (List.mem_cons_of_mem n hm)) h

lemma dfs_sound_node {adj : String → List String} :
    ∀ fuel, DfsSoundNode adj fuel := by
  intro fuel
  induction fuel with
  | zero =>
    intro v stack black b1 _ _ h
    simp [dfsNode] at h
  | succ f ih =>
    have hQ := dfs_sound_nbrs_of_node f ih
    intro v stack black b1 hst hhd h
    simp [dfsNode] at h
    cases hdn : dfsNbrsF adj (dfsNode adj f) (adj v) (v :: stack) black with
    | none => rw [hdn] at h; simp at h
    | some res =>
      obtain ⟨b, black1⟩ := res
      cases b with
      | true =>
        exact hQ (adj v) v stack black black1 (stackOK_push hst hhd)
          (fun n hn => hn) hdn
      | false =>
        rw [hdn] at h
        simp at h

lemma hasCyclesLoop_sound {adj : String → List String} :
    ∀ vs fuel black, hasCyclesLoop adj fuel vs black = some true →
      HasCycleRel adj := by
  intro vs
  induction vs with
  | nil => intro fuel black h; simp [hasCyclesLoop] at h
  | cons v rest ih =>
    intro fuel black h
    by_cases hb : v ∈ black
    · simp [hasCyclesLoop, hb] at h
      exact ih fuel black h
    · simp [hasCyclesLoop, hb] at h
      cases hdn : dfsNode adj fuel v [] black with
      | none => rw [hdn] at h; simp at h
      | some res =>
        obtain ⟨b, black1⟩ := res
        cases b with
        | true =>
          exact dfs_sound_node fuel v [] black black1 trivial
            (fun h2 t2 he => by cases he) hdn
        | false =>
          rw [hdn] at h
          simp at h
          exact ih fuel black1 h

/-- If `_has_cycles` reports a cycle, the digraph really has one. -/
lemma hasCycles_sound {nodes : List Node} {edges : List Edge}
    (h : hasCycles nodes edges = true) : HasCycleRel (adjOf edges) := by
  have h2 := hasCycles_eq_some nodes edges
  rw [h] at h2
  unfold hasCyclesO at h2
  exact hasCyclesLoop_sound _ _ _ h2

/-! ## Completeness of the cycle detection: no cycle is missed -/

/-- The finished list is topologically ordered: whenever
    `black = b₁ ++ u :: b₂`, every successor of `u` finished before `u`. -/
def blackOrd (adj : String → List String) (black : List String) : Prop :=
  ∀ b₁ u b₂, black = b₁ ++ u :: b₂ → ∀ n ∈ adj u, n ∈ b₁

lemma blackOrd_nil {adj : String → List String} : blackOrd adj [] := by
  intro b₁ u b₂ h
  exact absurd h (by simp)

lemma append_singleton_decomp {α : Type} {l b₁ b₂ : List α} {u v : α}
    (h : l ++ [v] = b₁ ++ u :: b₂) :
    (b₁ = l ∧ u = v ∧ b₂ = []) ∨ ∃ b₂', b₂ = b₂' ++ [v] ∧ l = b₁ ++ u :: b₂' := by
  rcases List.eq_nil_or_concat b₂ with rfl | ⟨b₂', z, rfl⟩
  · obtain ⟨h1, h2⟩ := List.append_inj' h rfl
    left
    refine ⟨h1.symm, ?_, rfl⟩
    injection h2 with hv _
    exact hv.symm
  · rw [List.concat_eq_append] at h
    have hr : b₁ ++ u :: (b₂' ++ [z]) = (b₁ ++ u :: b₂') ++ [z] := by simp
    obtain ⟨h1, h2⟩ := List.append_inj' (h.trans hr) rfl
    injection h2 with hv _
    right
    exact ⟨b₂', by rw [List.concat_eq_append, hv], h1⟩

lemma blackOrd_append {adj : String → List String} {black : List String} {v : String}
    (hord : blackOrd adj black) (hsucc : ∀ n ∈ adj v, n ∈ black) :
    blackOrd adj (black ++ [v]) := by
  intro b₁ u b₂ h n hn
  rcases append_singleton_decomp h with ⟨rfl, rfl, rfl⟩ | ⟨b₂', rfl, hl⟩
  · exact hsucc n hn
  · exact hord b₁ u b₂' hl n hn

lemma blackOrd_front {adj : String → List String} {black : List String} {v : String}
    (h : blackOrd adj (black ++ [v])) : blackOrd adj black := by
  intro b₁ u b₂ he n hn
  exact h b₁ u (b₂ ++ [v]) (by rw [he]; simp) n hn

lemma blackOrd_last {adj : String → List String} {black : List String} {v : String}
    (h : blackOrd adj (black ++ [v])) : ∀ n ∈ adj v, n ∈ black :=
  h black v [] rfl

lemma blackOrd_step_closed {adj : String → List String} {black : List String} {v : String}
    (h : blackOrd adj (black ++ [v])) :
    ∀ x ∈ black, ∀ n ∈ adj x, n ∈ black := by
  intro x hx n hn
  rcases List.append_of_mem hx with ⟨s, t, rfl⟩
  have hmem := h s x (t ++ [v]) (by simp) n hn
  exact List.mem_append.mpr (Or.inl hmem)

lemma blackOrd_reflTrans_closed {adj : String → List String} {black : List String}
    {v : String} (h : blackOrd adj (black ++ [v])) :
    ∀ x y, x ∈ black → Relation.ReflTransGen (stepRel adj) x y → y ∈ black := by
  intro x y hx hxy
  induction hxy with
  | refl => exact hx
  | tail hab hbc ih => exact blackOrd_step_closed h _ ih _ hbc

lemma blackOrd_no_cycle {adj : String → List String} :
    ∀ black : List String, black.Nodup → blackOrd adj black →
      ∀ u ∈ black, ¬ Relation.TransGen (stepRel adj) u u := by
  intro black
  induction black using List.reverseRecOn with
  | nil => intro _ _ u hu; exact absurd hu (List.not_mem_nil u)
  | append_singleton b w ih =>
    intro hnd hord u hu hcyc
    obtain ⟨hndb, _, hdisj⟩ := List.nodup_append.mp hnd
    have hwb : w ∉ b := fun hw => hdisj hw (List.mem_singleton_self w)
    rcases List.mem_append.mp hu with hub | huw
    · exact ih hndb (blackOrd_front hord) u hub hcyc
    · have huw2 : u = w := by simpa using huw
      subst huw2
      rcases Relation.TransGen.head'_iff.mp hcyc with ⟨n, hstep, hrt⟩
      have hnb : n ∈ b := blackOrd_last hord n hstep
      exact hwb (blackOrd_reflTrans_closed hord n u hnb hrt)

/-- Completeness invariant for one `dfs` call returning `False`. -/
def DfsComplNode (adj : String → List String) (fuel : Nat) : Prop :=
  ∀ v stack black black1,
    black.Nodup → blackOrd adj black → (∀ x ∈ black, x ∉ stack) →
    v ∉ black → v ∉ stack →
    dfsNode adj fuel v stack black = some (false, black1) →
    black1.Nodup ∧ blackOrd adj black1 ∧ (∀ x ∈ black1, x ∉ stack) ∧
      (∀ x ∈ black, x ∈ black1) ∧ v ∈ black1

/-- Completeness invariant for the neighbour loop returning `False`. -/
def DfsComplNbrs (adj : String → List String) (fuel : Nat) : Prop :=
  ∀ ns stack black black1,
    black.Nodup → blackOrd adj black → (∀ x ∈ black, x ∉ stack) →
    dfsNbrsF adj (dfsNode adj fuel) ns stack black = some (false, black1) →
    black1.Nodup ∧ blackOrd adj black1 ∧ (∀ x ∈ black1, x ∉ stack) ∧
      (∀ x ∈ black, x ∈ black1) ∧ (∀ n ∈ ns, n ∈ black1)

lemma dfs_compl_nbrs_of_node {adj : String → List String} (fuel : Nat)
    (hP : DfsComplNode adj fuel) : DfsComplNbrs adj fuel := by
  intro ns
  induction ns with
  | nil =>
    intro stack black black1 hnd hord hnst h
    simp only [dfsNbrsF, Option.some.injEq, Prod.mk.injEq, true_and] at h
    subst h
    exact ⟨hnd, hord, hnst, fun x hx => hx, by simp⟩
  | cons n rest ih =>
    intro stack black black1 hnd hord hnst h
    by_cases hv : n ∈ stack ∨ n ∈ black
    · by_cases hs : n ∈ stack
      · simp only [dfsNbrsF] at h
        rw [if_pos hv, if_pos hs] at h
        simp at h
      · have hb : n ∈ black := hv.resolve_left hs
        simp only [dfsNbrsF] at h
        rw [if_pos hv, if_neg hs] at h
        obtain ⟨h1, h2, h3, h4, h5⟩ := ih stack black black1 hnd hord hnst h
        refine ⟨h1, h2, h3, h4, ?_⟩
        intro m hm
        rcases List.mem_cons.mp hm with rfl | hm2
        · exact h4 m hb
        · exact h5 m hm2
    · push_neg at hv
      simp only [dfsNbrsF] at h
      rw [if_neg (fun hor => hor.elim hv.1 hv.2)] at h
      cases hdn : dfsNode adj fuel n stack black with
      | none => rw [hdn] at h; simp at h
      | some res =>
        obtain ⟨b, black2⟩ := res
        cases b with
        | true => rw [hdn] at h; simp at h
        | false =>
          rw [hdn] at h
          simp only at h
          obtain ⟨h1, h2, h3, h4, h5⟩ :=
            hP n stack black black2 hnd hord hnst hv.2 hv.1 hdn
          obtain ⟨g1, g2, g3, g4, g5⟩ := ih stack black2 black1 h1 h2 h3 h
          refine ⟨g1, g2, g3, fun x hx => g4 x (h4 x hx), ?_⟩
          intro m hm
          rcases List.mem_cons.mp hm with rfl | hm2
          · exact g4 m h5
          · exact g5 m hm2

lemma dfs_compl_node {adj : String → List String} :
    ∀ fuel, DfsComplNode adj fuel := by
  intro fuel
  induction fuel with
  | zero =>
    intro v stack black black1 _ _ _ _ _ h
    simp [dfsNode] at h
  | succ f ih =>
    have hQ := dfs_compl_nbrs_of_node f ih
    intro v stack black black1 hnd hord hnst hvb hvs h
    simp only [dfsNode] at h
    cases hdn : dfsNbrsF adj (dfsNode adj f) (adj v) (v :: stack) black with
    | none => rw [hdn] at h; simp at h
    | some res =>
      obtain ⟨b, black2⟩ := res
      cases b with
      | true => rw [hdn] at h; simp at h
      | false =>
        rw [hdn] at h
        simp only [Option.some.injEq, Prod.mk.injEq, true_and] at h
        subst h
        have hnst1 : ∀ x ∈ black, x ∉ v :: stack := by
          intro x hx hmem
          rcases List.mem_cons.mp hmem with rfl | hm2
          · exact hvb hx
          · exact hnst x hx hm2
        obtain ⟨h1, h2, h3, h4, h5⟩ :=
          hQ (adj v) (v :: stack) black black2 hnd hord hnst1 hdn
        have hvb2 : v ∉ black2 := fun hv2 =>
          h3 v hv2 (List.mem_cons_self v stack)
        refine ⟨?_, blackOrd_append h2 h5, ?_, ?_, ?_⟩
        · rw [List.nodup_append]
          exact ⟨h1, List.nodup_singleton v, fun x hx hxv =>
            hvb2 (by rwa [List.mem_singleton.mp hxv] at hx)⟩
        · intro x hx
          rcases List.mem_append.mp hx with hx2 | hx2
          · exact fun hm => h3 x hx2 (List.mem_cons_of_mem v hm)
          · rw [List.mem_singleton.mp hx2]
            exact hvs
        · intro x hx
          exact List.mem_append.mpr (Or.inl (h4 x hx))
        · exact List.mem_append.mpr (Or.inr (List.mem_singleton_self v))

lemma hasCyclesLoop_compl {adj : String → List String} :
    ∀ vs fuel black, black.Nodup → blackOrd adj black →
      hasCyclesLoop adj fuel vs black = some false →
      ∃ blackF, blackF.Nodup ∧ blackOrd adj blackF ∧
        (∀ x ∈ black, x ∈ blackF) ∧ ∀ v ∈ vs, v ∈ blackF := by
  intro vs
  induction vs with
  | nil =>
    intro fuel black hnd hord _
    exact ⟨black, hnd, hord, fun x hx => hx, by simp⟩
  | cons v rest ih =>
    intro fuel black hnd hord h
    simp only [hasCyclesLoop] at h
    by_cases hb : v ∈ black
    · rw [if_pos hb] at h
      obtain ⟨blackF, g1, g2, g3, g4⟩ := ih fuel black hnd hord h
      refine ⟨blackF, g1, g2, g3, ?_⟩
      intro x hx
      rcases List.mem_cons.mp hx with rfl | hx2
      · exact g3 x hb
      · exact g4 x hx2
    · rw [if_neg hb] at h
      cases hdn : dfsNode adj fuel v [] black with
      | none => rw [hdn] at h; simp at h
      | some res =>
        obtain ⟨b, black2⟩ := res
        cases b with
        | true => rw [hdn] at h; simp at h
        | false =>
          rw [hdn] at h
          simp only at h
          obtain ⟨h1, h2, h3, h4, h5⟩ :=
            dfs_compl_node fuel v [] black black2 hnd hord
              (fun x _ => List.not_mem_nil x) hb (List.not_mem_nil v) hdn
          obtain ⟨blackF, g1, g2, g3, g4⟩ := ih fuel black2 h1 h2 h
          refine ⟨blackF, g1, g2, fun x hx => g3 x (h4 x hx), ?_⟩
          intro x hx
          rcases List.mem_cons.mp hx with rfl | hx2
          · exact g3 x h5
          · exact g4 x hx2

/-- If `_has_cycles` reports no cycle and every edge source is a node id
    (guaranteed at the call site by the dangling-edge check), the digraph
    is acyclic. -/
lemma hasCycles_compl {nodes : List Node} {edges : List Edge}
    (hsrc : ∀ e ∈ edges, e.source ∈ nodes.map fun n => n.id)
    (h : hasCycles nodes edges = false) : ¬ HasCycleRel (adjOf edges) := by
  rintro ⟨u, hcyc⟩
  rcases Relation.TransGen.head'_iff.mp hcyc with ⟨n, hstep, _⟩
  have hu : u ∈ nodes.map fun n => n.id := by
    rcases stepRel_adjOf.mp hstep with ⟨e, he, hsrc2, _⟩
    exact hsrc2 ▸ hsrc e he
  have h2 := hasCycles_eq_some nodes edges
  rw [h] at h2
  unfold hasCyclesO at h2
  obtain ⟨blackF, hnd, hord, _, hcov⟩ :=
    hasCyclesLoop_compl _ _ _ List.nodup_nil blackOrd_nil h2
  exact blackOrd_no_cycle blackF hnd hord u (hcov u hu) hcyc

/-! ## Context-merge algebra

The context threaded through a traversal is exactly the left fold of
`context.update` applications over the application-ordered trace; these
lemmas characterise presence and the last-writer value. -/

lemma ctxUpdate_lookup (c : Ctx) (r : Contribution) (k : String) :
    ctxUpdate c r k = ((r.lookup k).orElse fun _ => c k) := rfl

lemma foldl_ctxUpdate_none {Δ : List Contribution} {c : Ctx} {k : String} :
    (List.foldl ctxUpdate c Δ) k = none ↔
      c k = none ∧ ∀ r ∈ Δ, r.lookup k = none := by
  induction Δ generalizing c with
  | nil => simp
  | cons r Δ ih =>
    rw [List.foldl_cons, ih]
    constructor
    · rintro ⟨hu, hall⟩
      rw [ctxUpdate_lookup] at hu
      rcases (Option.orElse_eq_none _ _).mp hu with ⟨h1, h2⟩
      refine ⟨h2, ?_⟩
      intro x hx
      rcases List.mem_cons.mp hx with rfl | hx2
      · exact h1
      · exact hall x hx2
    · rintro ⟨hc, hall⟩
      refine ⟨?_, fun x hx => hall x (List.mem_cons_of_mem r hx)⟩
      rw [ctxUpdate_lookup, hall r (List.mem_cons_self r Δ), hc]
      rfl

lemma foldl_ctxUpdate_mono {Δ : List Contribution} {c : Ctx} {k : String}
    (h : c k ≠ none) : (List.foldl ctxUpdate c Δ) k ≠ none := by
  intro hval
  exact h (foldl_ctxUpdate_none.mp hval).1

lemma foldl_ctxUpdate_some_source {Δ : List Contribution} {c : Ctx} {k : String}
    {v : Val} (h : (List.foldl ctxUpdate c Δ) k = some v) :
    c k = some v ∨ ∃ r ∈ Δ, r.lookup k = some v := by
  induction Δ generalizing c with
  | nil => exact Or.inl h
  | cons r Δ ih =>
    rw [List.foldl_cons] at h
    rcases ih h with hc | ⟨r2, hr2, hv2⟩
    · rw [ctxUpdate_lookup] at hc
      cases hl : r.lookup k with
      | none => rw [hl] at hc; exact Or.inl hc
      | some w =>
        rw [hl] at hc
        exact Or.inr ⟨r, List.mem_cons_self r Δ, hl.trans hc⟩
    · exact Or.inr ⟨r2, List.mem_cons_of_mem r hr2, hv2⟩

/-- The value of the latest contribution in the list that writes key `k`
    (later list elements are applied later and take precedence). -/
def lastWrite (k : String) : List Contribution → Option Val
  | [] => none
  | r :: Δ => (lastWrite k Δ).orElse fun _ => r.lookup k

/-- Last-writer-wins along the application order: the final context value
    at a key is the value of the latest applied contribution writing it,
    falling back to the initial context. -/
lemma foldl_ctxUpdate_lastWriter {Δ : List Contribution} {c : Ctx} {k : String} :
    (List.foldl ctxUpdate c Δ) k = ((lastWrite k Δ).orElse fun _ => c k) := by
  induction Δ generalizing c with
  | nil => rfl
  | cons r Δ ih =>
    rw [List.foldl_cons, ih]
    show ((lastWrite k Δ).orElse fun _ => ctxUpdate c r k) =
      (((lastWrite k Δ).orElse fun _ => r.lookup k).orElse fun _ => c k)
    cases lastWrite k Δ with
    | some w => rfl
    | none => rfl

/-! ## Handler contributions

Shape and sanity facts about each handler's returned contribution map:
no handler ever writes `user_query`, and any written `response` or
`llm_response` is a nonempty (hence truthy) string. -/

/-- Contributions actually produced by the handlers: they never contain
    the `user_query` key, and their `response` / `llm_response` entries
    are truthy. -/
def GoodContrib (r : Contribution) : Prop :=
  r.lookup "user_query" = none ∧
  (∀ v, r.lookup "response" = some v → pyTruthy v = true) ∧
  (∀ v, r.lookup "llm_response" = some v → pyTruthy v = true)

lemma string_append_ne_empty {a b : String} (h : a ≠ "") : a ++ b ≠ "" := by
  intro hab
  apply h
  have hl : (a ++ b).length = 0 := by rw [hab]; rfl
  rw [String.length_append] at hl
  have : a.length = 0 := by omega
  cases a with
  | mk data =>
    cases data with
    | nil => rfl
    | cons c cs => simp [String.length, List.length] at this

lemma execUserQuery_shape {ctx : Ctx} {r : Contribution}
    (h : execUserQuery ctx = .ok r) : ∃ v, r = [("query", v)] := by
  unfold execUserQuery at h
  cases hq : ctx "user_query" with
  | none => rw [hq] at h; cases h
  | some v =>
    rw [hq] at h
    cases h
    exact ⟨v, rfl⟩

lemma kbAttempt_shape {config : Contribution} {ctx : Ctx} {caps : Caps}
    {ids : List Val} {r : Contribution}
    (h : kbAttempt config ctx caps ids = .ok r) :
    ∃ a b, r = [("knowledge_context", a), ("sources", b)] := by
  unfold kbAttempt at h
  cases hm : kbMissing caps ids with
  | error e => rw [hm] at h; simp at h
  | ok ms =>
    rw [hm] at h
    dsimp only at h
    cases hg : kbGenAll caps (cfgGetD config "model" (.vStr "openai/text-embedding-3-large"))
        (cfgGetD config "chunkSize" (.vInt 1000))
        (cfgGetD config "chunkOverlap" (.vInt 200)) ms with
    | error e => rw [hg] at h; simp at h
    | ok u =>
      rw [hg] at h
      dsimp only at h
      cases hs : caps.embSearch (ctxGetD ctx "user_query" (.vStr ""))
          (cfgGetD config "top_k" (.vInt 5))
          (if !ids.isEmpty then some ids else none)
          (cfgGetD config "model" (.vStr "openai/text-embedding-3-large")) with
      | error e => rw [hs] at h; simp at h
      | ok results =>
        rw [hs] at h
        dsimp only at h
        simp only [Except.ok.injEq] at h
        exact ⟨_, _, h.symm⟩

lemma execKB_shape {config : Contribution} {ctx : Ctx} {caps : Caps}
    {r : Contribution} (h : execKB config ctx caps = .ok r) :
    (∃ a b, r = [("knowledge_context", a), ("sources", b)]) ∨
      (∃ c, r = [("knowledge_context", .vStr ""), ("sources", .vList []),
        ("error", .vStr c)]) := by
  unfold execKB at h
  cases hd : extractDocIds (cfgGetD config "selectedDocuments" (.vList [])) with
  | error e => rw [hd] at h; simp at h
  | ok ids =>
    rw [hd] at h
    dsimp only at h
    cases ha : kbAttempt config ctx caps ids with
    | ok rr =>
      rw [ha] at h
      dsimp only at h
      simp only [Except.ok.injEq] at h
      exact Or.inl (h ▸ kbAttempt_shape ha)
    | error e =>
      rw [ha] at h
      dsimp only at h
      simp only [Except.ok.injEq] at h
      exact Or.inr ⟨e, h.symm⟩

lemma execLLM_shape {config : Contribution} {ctx : Ctx} {caps : Caps}
    {r : Contribution} (h : execLLM config ctx caps = .ok r) :
    ∃ s m w, r = [("llm_response", .vStr s), ("model_used", m),
      ("web_search_used", w)] ∧ s ≠ "" := by
  unfold execLLM at h
  cases ht : checkTemperature (cfgGet config "temperature") with
  | error e => rw [ht] at h; simp at h
  | ok u1 =>
    rw [ht] at h
    dsimp only at h
    cases hk : checkApiKeyStartswith (cfgGet config "apiKey") with
    | error e => rw [hk] at h; simp at h
    | ok u2 =>
      rw [hk] at h
      dsimp only at h
      cases hg : caps.llmGenerate (llmSystemPrompt config)
          (llmWebPrompt config ctx caps (llmBasePrompt ctx))
          (cfgGetD config "model" (.vStr "")) (cfgGet config "temperature") with
      | ok response =>
        rw [hg] at h
        dsimp only at h
        simp only [Except.ok.injEq] at h
        refine ⟨_, _, _, h.symm, ?_⟩
        by_cases hc : (response == "" || pyIsBlank response) = true
        · rw [if_pos hc]
          intro hx
          exact absurd hx (by simp [apologyString])
        · rw [if_neg hc]
          intro hx
          apply hc
          rw [hx]
          rfl
      | error e =>
        rw [hg] at h
        dsimp only at h
        simp only [Except.ok.injEq] at h
        refine ⟨_, _, _, h.symm, ?_⟩
        exact string_append_ne_empty (by simp)

lemma execWeb_shape {config : Contribution} {ctx : Ctx} {caps : Caps}
    {r : Contribution} (h : execWeb config ctx caps = .ok r) :
    ∃ a b, r = [("web_context", a), ("web_results", b)] := by
  unfold execWeb at h
  dsimp only at h
  cases hs : (if pyValEqStr (cfgGetD config "searchType" .vNone) "news" = true then
      caps.webSearchNews (ctxGetD ctx "user_query" (.vStr ""))
        (cfgGetD config "numResults" (.vInt 5)) (cfgGetD config "searchAPI" (.vStr "SerpAPI"))
    else
      caps.webSearch (ctxGetD ctx "user_query" (.vStr ""))
        (cfgGetD config "numResults" (.vInt 5)) (cfgGetD config "searchAPI" (.vStr "SerpAPI"))) with
  | ok results =>
    rw [hs] at h
    dsimp only at h
    simp only [Except.ok.injEq] at h
    exact ⟨_, _, h.symm⟩
  | error e =>
    rw [hs] at h
    dsimp only at h
    simp only [Except.ok.injEq] at h
    exact ⟨_, _, h.symm⟩

lemma pyIsBlank_empty : pyIsBlank "" = true := rfl

lemma execOutput_shape (config : Contribution) (ctx : Ctx) :
    ∃ s b m, execOutput config ctx = [("response", .vStr s), ("sources", b),
      ("metadata", m)] ∧ s ≠ "" := by
  simp only [execOutput]
  by_cases hc : (!pyTruthy (ctxGetD ctx "llm_response" (.vStr "")) ||
      pyIsBlank (pyStr (ctxGetD ctx "llm_response" (.vStr "")))) = true
  · rw [if_pos hc]
    refine ⟨_, _, _, rfl, ?_⟩
    intro hx
    exact absurd hx (by simp [pyStr, noResponseString])
  · rw [if_neg hc]
    refine ⟨_, _, _, rfl, ?_⟩
    intro hx
    apply hc
    rw [Bool.or_eq_true]
    right
    rw [hx]
    rfl

/-- Every handler output is a good contribution: it never writes
    `user_query`, and any `response` / `llm_response` it writes is truthy. -/
lemma runHandler_good {node : Node} {ctx : Ctx} {caps : Caps} {r : Contribution}
    (h : runHandler node ctx caps = .ok r) : GoodContrib r := by
  unfold runHandler at h
  dsimp only at h
  by_cases h1 : (node.ctype == "userQuery") = true
  · rw [if_pos h1] at h
    rcases execUserQuery_shape h with ⟨v, rfl⟩
    refine ⟨?_, ?_, ?_⟩ <;> simp [List.lookup]
  · rw [if_neg h1] at h
    by_cases h2 : (node.ctype == "knowledgeBase") = true
    · rw [if_pos h2] at h
      rcases execKB_shape h with ⟨a, b, rfl⟩ | ⟨c, rfl⟩ <;>
        (refine ⟨?_, ?_, ?_⟩ <;> simp [List.lookup])
    · rw [if_neg h2] at h
      by_cases h3 : (node.ctype == "llm") = true
      · rw [if_pos h3] at h
        rcases execLLM_shape h with ⟨sv, m, w, rfl, hs⟩
        refine ⟨by simp [List.lookup], by simp [List.lookup], ?_⟩
        intro v hv
        simp [List.lookup] at hv
        rw [← hv]
        simp [pyTruthy, hs]
      · rw [if_neg h3] at h
        by_cases h4 : (node.ctype == "webSearch") = true
        · rw [if_pos h4] at h
          rcases execWeb_shape h with ⟨a, b, rfl⟩
          refine ⟨?_, ?_, ?_⟩ <;> simp [List.lookup]
        · rw [if_neg h4] at h
          by_cases h5 : (node.ctype == "outputN") = true
          · rw [if_pos h5] at h
            rcases execOutput_shape node.config ctx with ⟨sv, b, m, hsh, hs⟩
            simp only [Except.ok.injEq] at h
            rw [← h, hsh]
            refine ⟨by simp [List.lookup], ?_, by simp [List.lookup]⟩
            intro v hv
            simp [List.lookup] at hv
            rw [← hv]
            simp [pyTruthy, hs]
          · rw [if_neg h5] at h
            simp at h

/-! ## The traversal as a fold of contribution applications -/

/-- Delta property of one `_execute_node` call: the traversal extends the
    application and execution traces, the context is exactly the fold of
    the newly applied contributions, and everything applied is a handler
    output. -/
def ExecDeltaNode (adj : String → List String) (nodes : List Node) (caps : Caps)
    (fuel : Nat) : Prop :=
  ∀ node st st1 r, execNode adj nodes caps fuel node st = some (.ok (st1, r)) →
    ∃ Δ Δe, st1.applyTrace = st.applyTrace ++ Δ ∧
      st1.execTrace = st.execTrace ++ Δe ∧
      st1.ctx = List.foldl ctxUpdate st.ctx Δ ∧
      (∀ c ∈ Δ, GoodContrib c) ∧
      (∀ p ∈ Δe, p.2 ∈ Δ) ∧ r ∈ Δ ∧ Δe ≠ []

/-- Delta property of the successor loop. -/
def ExecDeltaChildren (adj : String → List String) (nodes : List Node) (caps : Caps)
    (fuel : Nat) : Prop :=
  ∀ ids st st1,
    execChildrenF nodes (execNode adj nodes caps fuel) ids st = some (.ok st1) →
    ∃ Δ Δe, st1.applyTrace = st.applyTrace ++ Δ ∧
      st1.execTrace = st.execTrace ++ Δe ∧
      st1.ctx = List.foldl ctxUpdate st.ctx Δ ∧
      (∀ c ∈ Δ, GoodContrib c) ∧
      (∀ p ∈ Δe, p.2 ∈ Δ)

lemma exec_delta_children_of_node {adj : String → List String} {nodes : List Node}
    {caps : Caps} (fuel : Nat) (hP : ExecDeltaNode adj nodes caps fuel) :
    ExecDeltaChildren adj nodes caps fuel := by
  intro ids
  induction ids with
  | nil =>
    intro st st1 h
    simp only [execChildrenF, Option.some.injEq, Except.ok.injEq] at h
    subst h
    exact ⟨[], [], by simp, by simp, rfl, by simp, by simp⟩
  | cons nid rest ih =>
    intro st st1 h
    simp only [execChildrenF] at h
    cases hf : nodes.find? (fun n => n.id == nid) with
    | none =>
      rw [hf] at h
      dsimp only at h
      exact ih st st1 h
    | some nd =>
      rw [hf] at h
      dsimp only at h
      cases hx : execNode adj nodes caps fuel nd st with
      | none => rw [hx] at h; simp at h
      | some res =>
        rw [hx] at h
        cases res with
        | error e => simp at h
        | ok p =>
          obtain ⟨stA, rA⟩ := p
          dsimp only at h
          obtain ⟨Δ₁, Δe₁, ha1, he1, hc1, hg1, hs1, hr1, _⟩ := hP nd st stA rA hx
          obtain ⟨Δ₂, Δe₂, ha2, he2, hc2, hg2, hs2⟩ :=
            ih (applyContrib stA rA) st1 h
          refine ⟨Δ₁ ++ [rA] ++ Δ₂, Δe₁ ++ Δe₂, ?_, ?_, ?_, ?_, ?_⟩
          · rw [ha2]
            show stA.applyTrace ++ [rA] ++ Δ₂ = _
            rw [ha1]
            simp [List.append_assoc]
          · rw [he2]
            show stA.execTrace ++ Δe₂ = _
            rw [he1, List.append_assoc]
          · rw [hc2]
            show List.foldl ctxUpdate (ctxUpdate stA.ctx rA) Δ₂ = _
            rw [hc1]
            rw [List.append_assoc, List.foldl_append, List.foldl_append]
            rfl
          · intro c hc
            rcases List.mem_append.mp hc with hc3 | hc3
            · rcases List.mem_append.mp hc3 with hc4 | hc4
              · exact hg1 c hc4
              · rw [List.mem_singleton.mp hc4]
                exact hg1 rA hr1
            · exact hg2 c hc3
          · intro p hp
            rcases List.mem_append.mp hp with hp2 | hp2
            · exact List.mem_append.mpr (Or.inl (List.mem_append.mpr (Or.inl (hs1 p hp2))))
            · exact List.mem_append.mpr (Or.inr (hs2 p hp2))

lemma exec_delta_node {adj : String → List String} {nodes : List Node}
    {caps : Caps} : ∀ fuel, ExecDeltaNode adj nodes caps fuel := by
  intro fuel
  induction fuel with
  | zero => intro node st st1 r h; simp [execNode] at h
  | succ f ih =>
    have hQ := exec_delta_children_of_node f ih
    intro node st st1 r h
    simp only [execNode] at h
    cases hh : runHandler node st.ctx caps with
    | error e => rw [hh] at h; simp at h
    | ok r0 =>
      rw [hh] at h
      dsimp only at h
      cases hc : execChildrenF nodes (execNode adj nodes caps f) (adj node.id)
          (applyContrib { st with execTrace := st.execTrace ++ [(node.id, r0)] } r0) with
      | none => rw [hc] at h; simp at h
      | some res =>
        rw [hc] at h
        cases res with
        | error e => simp at h
        | ok st2 =>
          simp only [Option.some.injEq, Except.ok.injEq, Prod.mk.injEq] at h
          obtain ⟨rfl, rfl⟩ := h
          obtain ⟨Δ₂, Δe₂, ha2, he2, hc2, hg2, hs2⟩ := hQ _ _ _ hc
          refine ⟨r0 :: Δ₂, (node.id, r0) :: Δe₂, ?_, ?_, ?_, ?_, ?_, ?_, ?_⟩
          · rw [ha2]
            show st.applyTrace ++ [r0] ++ Δ₂ = _
            rw [List.append_assoc]
            rfl
          · rw [he2]
            show st.execTrace ++ [(node.id, r0)] ++ Δe₂ = _
            rw [List.append_assoc]
            rfl
          · rw [hc2]
            rfl
          · intro c hc3
            rcases List.mem_cons.mp hc3 with rfl | hc4
            · exact runHandler_good hh
            · exact hg2 c hc4
          · intro p hp
            rcases List.mem_cons.mp hp with rfl | hp2
            · exact List.mem_cons_self _ _
            · exact List.mem_cons_of_mem _ (hs2 p hp2)
          · exact List.mem_cons_self _ _
          · simp

/-- Inversion of a completed `_execute_workflow_logic` run. -/
lemma runWorkflowLogic_inversion {g : Graph} {q : String} {caps : Caps}
    {out : LogicOut} (h : runWorkflowLogic g q caps = some (.ok out)) :
    ∃ adj startNode,
      buildExecutionGraph g.nodes g.edges = .ok adj ∧
      g.nodes.find? (fun n => n.ctype == "userQuery") = some startNode ∧
      execNode adj g.nodes caps (execFuel g) startNode (initSt q) =
        some (.ok (out.st, out.startResult)) ∧
      out.res.response =
        pyOr (ctxGetV out.st.ctx "response")
          (pyOr (ctxGetV out.st.ctx "llm_response")
            ((out.startResult.lookup "response").getD .vNone)) ∧
      out.res.llm_response = ctxGetV out.st.ctx "llm_response" ∧
      out.res.sources = ctxGetD out.st.ctx "sources" (.vList []) ∧
      out.res.metadata = ctxGetD out.st.ctx "metadata" (.vMap []) := by
  unfold runWorkflowLogic at h
  cases hb : buildExecutionGraph g.nodes g.edges with
  | error e => rw [hb] at h; simp at h
  | ok adj =>
    rw [hb] at h
    dsimp only at h
    cases hfind : g.nodes.find? (fun n => n.ctype == "userQuery") with
    | none => rw [hfind] at h; simp at h
    | some startNode =>
      rw [hfind] at h
      dsimp only at h
      cases hx : execNode adj g.nodes caps (execFuel g) startNode (initSt q) with
      | none => rw [hx] at h; simp at h
      | some res =>
        rw [hx] at h
        cases res with
        | error e => simp at h
        | ok p =>
          obtain ⟨stR, result⟩ := p
          dsimp only at h
          simp only [Option.some.injEq, Except.ok.injEq] at h
          rw [← h]
          exact ⟨adj, startNode, rfl, rfl, hx, rfl, rfl, rfl, rfl⟩

/-- Delta characterisation of a completed run, from the seeded context. -/
lemma runWorkflowLogic_delta {g : Graph} {q : String} {caps : Caps}
    {out : LogicOut} (h : runWorkflowLogic g q caps = some (.ok out)) :
    out.st.ctx = List.foldl ctxUpdate (seedCtx q) out.st.applyTrace ∧
    (∀ c ∈ out.st.applyTrace, GoodContrib c) ∧
    (∀ p ∈ out.st.execTrace, p.2 ∈ out.st.applyTrace) ∧
    out.startResult ∈ out.st.applyTrace ∧ out.st.execTrace ≠ [] := by
  obtain ⟨adj, startNode, hb, hfind, hx, _⟩ := runWorkflowLogic_inversion h
  obtain ⟨Δ, Δe, ha, he, hc, hg, hs, hr, hne⟩ :=
    exec_delta_node (execFuel g) startNode (initSt q) out.st out.startResult hx
  have ha0 : out.st.applyTrace = Δ := by simpa [initSt] using ha
  have he0 : out.st.execTrace = Δe := by simpa [initSt] using he
  refine ⟨?_, ?_, ?_, ?_, ?_⟩
  · rw [ha0, hc]
    rfl
  · rw [ha0]; exact hg
  · rw [ha0, he0]; exact hs
  · rw [ha0]; exact hr
  · rw [he0]; exact hne

/-! ## Fuel sufficiency of the traversal on acyclic graphs -/

/-- Every walk starting at `v` has fewer than `fuel` vertices. -/
def WalkBound (adj : String → List String) (v : String) (fuel : Nat) : Prop :=
  ∀ l, List.Chain (stepRel adj) v l → l.length + 1 ≤ fuel

lemma walkBound_pos {adj : String → List String} {v : String} {fuel : Nat}
    (h : WalkBound adj v fuel) : 1 ≤ fuel := by
  simpa using h [] List.Chain.nil

lemma walkBound_step {adj : String → List String} {v : String} {fuel : Nat}
    (h : WalkBound adj v (fuel + 1)) : ∀ w ∈ adj v, WalkBound adj w fuel := by
  intro w hw l hl
  have h2 := h (w :: l) (List.Chain.cons hw hl)
  simp at h2
  omega

/-- Totality statement for one `_execute_node` call under a walk bound. -/
def ExecSomeNode (adj : String → List String) (nodes : List Node) (caps : Caps)
    (fuel : Nat) : Prop :=
  ∀ node st, WalkBound adj node.id fuel →
    execNode adj nodes caps fuel node st ≠ none

/-- Totality statement for the successor loop under walk bounds. -/
def ExecSomeChildren (adj : String → List String) (nodes : List Node) (caps : Caps)
    (fuel : Nat) : Prop :=
  ∀ ids st, (∀ nid ∈ ids, WalkBound adj nid fuel) →
    execChildrenF nodes (execNode adj nodes caps fuel) ids st ≠ none

lemma exec_some_children_of_node {adj : String → List String} {nodes : List Node}
    {caps : Caps} (fuel : Nat) (hP : ExecSomeNode adj nodes caps fuel) :
    ExecSomeChildren adj nodes caps fuel := by
  intro ids
  induction ids with
  | nil => intro st _ h; simp [execChildrenF] at h
  | cons nid rest ih =>
    intro st hb h
    simp only [execChildrenF] at h
    cases hf : nodes.find? (fun n => n.id == nid) with
    | none =>
      rw [hf] at h
      dsimp only at h
      exact ih st (fun m hm => hb m (List.mem_cons_of_mem nid hm)) h
    | some nd =>
      rw [hf] at h
      dsimp only at h
      have hnd : nd.id = nid := by simpa using List.find?_some hf
      cases hx : execNode adj nodes caps fuel nd st with
      | none =>
        exact hP nd st (hnd ▸ hb nid (List.mem_cons_self nid rest)) hx
      | some res =>
        rw [hx] at h
        cases res with
        | error e => simp at h
        | ok p =>
          obtain ⟨st1, r1⟩ := p
          dsimp only at h
          exact ih (applyContrib st1 r1)
            (fun m hm => hb m (List.mem_cons_of_mem nid hm)) h

lemma exec_some_node {adj : String → List String} {nodes : List Node}
    {caps : Caps} : ∀ fuel, ExecSomeNode adj nodes caps fuel := by
  intro fuel
  induction fuel with
  | zero =>
    intro node st hwb _
    exact absurd (walkBound_pos hwb) (by omega)
  | succ f ih =>
    have hQ := exec_some_children_of_node f ih
    intro node st hwb h
    simp only [execNode] at h
    cases hh : runHandler node st.ctx caps with
    | error e => rw [hh] at h; simp at h
    | ok r0 =>
      rw [hh] at h
      dsimp only at h
      cases hc : execChildrenF nodes (execNode adj nodes caps f) (adj node.id)
          (applyContrib { st with execTrace := st.execTrace ++ [(node.id, r0)] } r0) with
      | none => exact hQ (adj node.id) _ (walkBound_step hwb) hc
      | some res =>
        rw [hc] at h
        cases res with
        | error e => simp at h
        | ok st2 => simp at h

lemma buildExecutionGraph_ok {nodes : List Node} {edges : List Edge}
    {adj : String → List String} (h : buildExecutionGraph nodes edges = .ok adj) :
    adj = adjOf edges := by
  unfold buildExecutionGraph at h
  by_cases hc : (edges.all fun e => (nodes.map fun n => n.id).contains e.source) = true
  · rw [if_pos hc] at h
    simpa using h.symm
  · rw [if_neg hc] at h
    cases h

lemma buildExecutionGraph_ok_of_sources {nodes : List Node} {edges : List Edge}
    (h : ∀ e ∈ edges, e.source ∈ nodes.map fun n => n.id) :
    buildExecutionGraph nodes edges = .ok (adjOf edges) := by
  unfold buildExecutionGraph
  rw [if_pos]
  rw [List.all_eq_true]
  intro e he
  exact List.elem_eq_true_of_mem (h e he)

/-- On an acyclic graph with well-formed edges the traversal fuel chosen by
    `runWorkflowLogic` is sufficient: the Python recursion terminates. -/
lemma runWorkflowLogic_isSome {g : Graph} {q : String} {caps : Caps}
    (hwf : ∀ e ∈ g.edges,
      e.source ∈ (g.nodes.map fun n => n.id) ∧ e.target ∈ (g.nodes.map fun n => n.id))
    (hacyc : ¬ HasCycleRel (adjOf g.edges)) :
    runWorkflowLogic g q caps ≠ none := by
  unfold runWorkflowLogic
  cases hb : buildExecutionGraph g.nodes g.edges with
  | error e => simp
  | ok adj =>
    dsimp only
    cases hfind : g.nodes.find? (fun n => n.ctype == "userQuery") with
    | none => simp
    | some startNode =>
      dsimp only
      have hadj : adj = adjOf g.edges := buildExecutionGraph_ok hb
      subst hadj
      have hstartmem : startNode ∈ g.nodes := List.mem_of_find?_eq_some hfind
      have hwb : WalkBound (adjOf g.edges) startNode.id (execFuel g) := by
        intro l hl
        have hcl : ∀ a b, stepRel (adjOf g.edges) a b →
            b ∈ (g.nodes.map fun n => n.id) := by
          intro a b hab
          rcases stepRel_adjOf.mp hab with ⟨e, he, _, rfl⟩
          exact (hwf e he).2
        have hvU : startNode.id ∈ (g.nodes.map fun n => n.id) :=
          List.mem_map.mpr ⟨startNode, hstartmem, rfl⟩
        have hlt := chain_length_lt hcl hacyc hvU l hl
        rw [List.length_map] at hlt
        unfold execFuel
        omega
      cases hx : execNode (adjOf g.edges) g.nodes caps (execFuel g) startNode (initSt q) with
      | none => exact absurd hx (exec_some_node (execFuel g) startNode (initSt q) hwb)
      | some res => cases res <;> simp

/-! ## Structure of a passing validation -/

lemma validateConfigs_ok_of {nodes : List Node}
    (h : ∀ n ∈ nodes, validateComponentConfig n = .ok ()) :
    validateConfigs nodes = .ok () := by
  induction nodes with
  | nil => rfl
  | cons n ns ih =>
    unfold validateConfigs
    rw [h n (List.mem_cons_self n ns)]
    exact ih fun m hm => h m (List.mem_cons_of_mem n hm)

lemma validateWorkflow_ok_struct {g : Graph} {s : ValidationSummary}
    (h : validateWorkflow g = .ok s) :
    g.nodes ≠ [] ∧
    "userQuery" ∈ (g.nodes.map fun n => n.ctype) ∧
    "outputN" ∈ (g.nodes.map fun n => n.ctype) ∧
    "llm" ∈ (g.nodes.map fun n => n.ctype) ∧
    (∀ e ∈ g.edges,
      e.source ∈ (g.nodes.map fun n => n.id) ∧ e.target ∈ (g.nodes.map fun n => n.id)) ∧
    hasCycles g.nodes g.edges = false ∧
    validateConfigs g.nodes = .ok () := by
  unfold validateWorkflow at h
  dsimp only at h
  by_cases h0 : g.nodes.isEmpty = true
  · rw [if_pos h0] at h; cases h
  · rw [if_neg h0] at h
    by_cases h1 : ((g.nodes.map fun n => n.ctype).contains "userQuery") = true
    · rw [if_neg (by rw [h1]; exact Bool.false_ne_true)] at h
      by_cases h2 : ((g.nodes.map fun n => n.ctype).contains "outputN") = true
      · rw [if_neg (by rw [h2]; exact Bool.false_ne_true)] at h
        by_cases h3 : ((g.nodes.map fun n => n.ctype).contains "llm") = true
        · rw [if_neg (by rw [h3]; exact Bool.false_ne_true)] at h
          cases hf : g.edges.find? (fun e =>
              !((g.nodes.map fun n => n.id).contains e.source &&
                (g.nodes.map fun n => n.id).contains e.target)) with
          | some e => rw [hf] at h; cases h
          | none =>
            rw [hf] at h
            dsimp only at h
            by_cases h4 : hasCycles g.nodes g.edges = true
            · rw [if_pos h4] at h; cases h
            · rw [if_neg h4] at h
              cases hv : validateConfigs g.nodes with
              | error e => rw [hv] at h; cases h
              | ok u =>
                refine ⟨by simpa [List.isEmpty_iff] using h0,
                  List.mem_of_elem_eq_true h1, List.mem_of_elem_eq_true h2,
                  List.mem_of_elem_eq_true h3, ?_, by simpa using h4, by cases u; rfl⟩
                intro e he
                have hfe := List.find?_eq_none.mp hf e he
                have hcc : ((g.nodes.map fun n => n.id).contains e.source &&
                    (g.nodes.map fun n => n.id).contains e.target) = true := by
                  cases hcc2 : ((g.nodes.map fun n => n.id).contains e.source &&
                      (g.nodes.map fun n => n.id).contains e.target) with
                  | true => rfl
                  | false => exact absurd (by rw [hcc2]; rfl) hfe
                exact ⟨List.mem_of_elem_eq_true (Bool.and_eq_true_iff.mp hcc).1,
                  List.mem_of_elem_eq_true (Bool.and_eq_true_iff.mp hcc).2⟩
        · rw [if_pos (by simp only [Bool.not_eq_true] at h3; rw [h3]; rfl)] at h
          cases h
      · rw [if_pos (by simp only [Bool.not_eq_true] at h2; rw [h2]; rfl)] at h
        cases h
    · rw [if_pos (by simp only [Bool.not_eq_true] at h1; rw [h1]; rfl)] at h
      cases h

/-! ## Handler totality under well-formed configurations -/

/-- The `llm` handler's two fallible statements outside any try block
    succeed (temperature convertible, apiKey absent or falsy or a string). -/
def LlmCfgOK (config : Contribution) : Prop :=
  checkTemperature (cfgGet config "temperature") = .ok () ∧
  checkApiKeyStartswith (cfgGet config "apiKey") = .ok ()

/-- The `knowledgeBase` handler's document-id extraction (outside its try
    block) succeeds. -/
def KbCfgOK (config : Contribution) : Prop :=
  ∃ ids, extractDocIds (cfgGetD config "selectedDocuments" (.vList [])) = .ok ids

/-- A node whose type the dispatcher recognises and whose config cannot
    make its handler raise outside a try block. -/
def KnownWfNode (n : Node) : Prop :=
  (n.ctype = "userQuery" ∨ n.ctype = "knowledgeBase" ∨ n.ctype = "llm" ∨
    n.ctype = "webSearch" ∨ n.ctype = "outputN") ∧
  (n.ctype = "llm" → LlmCfgOK n.config) ∧
  (n.ctype = "knowledgeBase" → KbCfgOK n.config)

lemma execKB_total {config : Contribution} {ctx : Ctx} {caps : Caps}
    (h : KbCfgOK config) : ∃ r, execKB config ctx caps = .ok r := by
  obtain ⟨ids, hids⟩ := h
  cases hres : execKB config ctx caps with
  | ok r => exact ⟨r, rfl⟩
  | error e =>
    exfalso
    unfold execKB at hres
    rw [hids] at hres
    dsimp only at hres
    cases ha : kbAttempt config ctx caps ids with
    | ok rr => rw [ha] at hres; cases hres
    | error e2 => rw [ha] at hres; cases hres

lemma execLLM_total {config : Contribution} {ctx : Ctx} {caps : Caps}
    (h : LlmCfgOK config) : ∃ r, execLLM config ctx caps = .ok r := by
  cases hres : execLLM config ctx caps with
  | ok r => exact ⟨r, rfl⟩
  | error e =>
    exfalso
    unfold execLLM at hres
    rw [h.1] at hres
    dsimp only at hres
    rw [h.2] at hres
    dsimp only at hres
    cases hg : caps.llmGenerate (llmSystemPrompt config)
        (llmWebPrompt config ctx caps (llmBasePrompt ctx))
        (cfgGetD config "model" (.vStr "")) (cfgGet config "temperature") with
    | ok response => rw [hg] at hres; cases hres
    | error e2 => rw [hg] at hres; cases hres

lemma execWeb_total (config : Contribution) (ctx : Ctx) (caps : Caps) :
    ∃ r, execWeb config ctx caps = .ok r := by
  cases hres : execWeb config ctx caps with
  | ok r => exact ⟨r, rfl⟩
  | error e =>
    exfalso
    unfold execWeb at hres
    dsimp only at hres
    cases hs : (if pyValEqStr (cfgGetD config "searchType" .vNone) "news" = true then
        caps.webSearchNews (ctxGetD ctx "user_query" (.vStr ""))
          (cfgGetD config "numResults" (.vInt 5)) (cfgGetD config "searchAPI" (.vStr "SerpAPI"))
      else
        caps.webSearch (ctxGetD ctx "user_query" (.vStr ""))
          (cfgGetD config "numResults" (.vInt 5)) (cfgGetD config "searchAPI" (.vStr "SerpAPI"))) with
    | ok results => rw [hs] at hres; cases hres
    | error e2 => rw [hs] at hres; cases hres

/-- A recognised node with a well-formed config never makes its handler
    raise, provided `user_query` is present in the context. -/
lemma runHandler_total {node : Node} {ctx : Ctx} {caps : Caps}
    (hk : KnownWfNode node) (hu : (ctx "user_query").isSome) :
    ∃ r, runHandler node ctx caps = .ok r := by
  obtain ⟨htype, hllm, hkb⟩ := hk
  unfold runHandler
  dsimp only
  rcases htype with h | h | h | h | h <;> rw [h]
  · cases hq : ctx "user_query" with
    | none => rw [hq] at hu; cases hu
    | some v =>
      refine ⟨[("query", v)], ?_⟩
      rw [if_pos (by decide)]
      unfold execUserQuery
      rw [hq]
  · rw [if_neg (by decide), if_pos (by decide)]
    exact execKB_total (hkb h)
  · rw [if_neg (by decide), if_neg (by decide), if_pos (by decide)]
    exact execLLM_total (hllm h)
  · rw [if_neg (by decide), if_neg (by decide), if_neg (by decide), if_pos (by decide)]
    exact execWeb_total node.config ctx caps
  · rw [if_neg (by decide), if_neg (by decide), if_neg (by decide),
      if_neg (by decide), if_pos (by decide)]
    exact ⟨_, rfl⟩

lemma ctx_uq_isSome_after {st1 : ExecSt} {st : ExecSt} {Δ : List Contribution}
    (hc : st1.ctx = List.foldl ctxUpdate st.ctx Δ)
    (hg : ∀ c ∈ Δ, GoodContrib c)
    (hu : (st.ctx "user_query").isSome) : (st1.ctx "user_query").isSome := by
  rw [hc, Option.isSome_iff_ne_none]
  exact foldl_ctxUpdate_mono (Option.isSome_iff_ne_none.mp hu)

/-- No-error statement for one `_execute_node` call. -/
def ExecOkNode (adj : String → List String) (nodes : List Node) (caps : Caps)
    (fuel : Nat) : Prop :=
  ∀ node st, node ∈ nodes → (∀ n ∈ nodes, KnownWfNode n) →
    (st.ctx "user_query").isSome →
    ∀ res, execNode adj nodes caps fuel node st = some res →
      ∃ p, res = .ok p

/-- No-error statement for the successor loop. -/
def ExecOkChildren (adj : String → List String) (nodes : List Node) (caps : Caps)
    (fuel : Nat) : Prop :=
  ∀ ids st, (∀ n ∈ nodes, KnownWfNode n) → (st.ctx "user_query").isSome →
    ∀ res, execChildrenF nodes (execNode adj nodes caps fuel) ids st = some res →
      ∃ st1, res = .ok st1

lemma exec_ok_children_of_node {adj : String → List String} {nodes : List Node}
    {caps : Caps} (fuel : Nat) (hP : ExecOkNode adj nodes caps fuel) :
    ExecOkChildren adj nodes caps fuel := by
  intro ids
  induction ids with
  | nil =>
    intro st _ _ res h
    simp only [execChildrenF, Option.some.injEq] at h
    exact ⟨st, h.symm⟩
  | cons nid rest ih =>
    intro st hkn hu res h
    simp only [execChildrenF] at h
    cases hf : nodes.find? (fun n => n.id == nid) with
    | none =>
      rw [hf] at h
      dsimp only at h
      exact ih st hkn hu res h
    | some nd =>
      rw [hf] at h
      dsimp only at h
      cases hx : execNode adj nodes caps fuel nd st with
      | none => rw [hx] at h; simp at h
      | some res0 =>
        rw [hx] at h
        obtain ⟨p, rfl⟩ :=
          hP nd st (List.mem_of_find?_eq_some hf) hkn hu res0 hx
        obtain ⟨st1, r1⟩ := p
        dsimp only at h
        obtain ⟨Δ, Δe, _, _, hc1, hg1, _, hr1, _⟩ :=
          exec_delta_node fuel nd st st1 r1 hx
        have hu1 : ((applyContrib st1 r1).ctx "user_query").isSome := by
          show ((ctxUpdate st1.ctx r1) "user_query").isSome
          rw [ctxUpdate_lookup, (hg1 r1 hr1).1]
          exact ctx_uq_isSome_after hc1 hg1 hu
        exact ih (applyContrib st1 r1) hkn hu1 res h

lemma exec_ok_node {adj : String → List String} {nodes : List Node}
    {caps : Caps} : ∀ fuel, ExecOkNode adj nodes caps fuel := by
  intro fuel
  induction fuel with
  | zero => intro node st _ _ _ res h; simp [execNode] at h
  | succ f ih =>
    have hQ := exec_ok_children_of_node f ih
    intro node st hmem hkn hu res h
    simp only [execNode] at h
    cases hh : runHandler node st.ctx caps with
    | error e =>
      obtain ⟨r, hr⟩ := runHandler_total (hkn node hmem) hu
      rw [hh] at hr
      cases hr
    | ok r0 =>
      rw [hh] at h
      dsimp only at h
      cases hc : execChildrenF nodes (execNode adj nodes caps f) (adj node.id)
          (applyContrib { st with execTrace := st.execTrace ++ [(node.id, r0)] } r0) with
      | none => rw [hc] at h; simp at h
      | some res1 =>
        rw [hc] at h
        have hu1 : ((applyContrib { st with execTrace := st.execTrace ++ [(node.id, r0)] } r0).ctx
            "user_query").isSome := by
          show ((ctxUpdate st.ctx r0) "user_query").isSome
          rw [ctxUpdate_lookup, (runHandler_good hh).1]
          exact hu
        obtain ⟨st2, rfl⟩ := hQ (adj node.id) _ hkn hu1 res1 hc
        dsimp only at h
        rw [← Option.some.injEq] at h
        exact ⟨(st2, r0), by simpa using h.symm⟩

lemma getLast?_mem {α : Type} {l : List α} {a : α} (h : l.getLast? = some a) :
    a ∈ l := by
  rcases List.mem_getLast?_eq_getLast h with ⟨h2, rfl⟩
  exact List.getLast_mem h2

lemma foldl_ctxUpdate_value_eq {Δ : List Contribution} {c : Ctx} {k : String}
    (h : ∀ r ∈ Δ, r.lookup k = none) : (List.foldl ctxUpdate c Δ) k = c k := by
  induction Δ generalizing c with
  | nil => rfl
  | cons r Δ ih =>
    rw [List.foldl_cons, ih fun x hx => h x (List.mem_cons_of_mem r hx),
      ctxUpdate_lookup, h r (List.mem_cons_self r Δ)]
    rfl

/-- A validated graph whose nodes are all recognised and well-configured
    executes to completion: the traversal returns an ok payload. -/
lemma runWorkflowLogic_completes {g : Graph} {q : String} {caps : Caps}
    {s : ValidationSummary} (hval : validateWorkflow g = .ok s)
    (hknown : ∀ n ∈ g.nodes, KnownWfNode n) :
    ∃ out, runWorkflowLogic g q caps = some (.ok out) := by
  obtain ⟨hne, huq, hout2, hllm2, hedges, hcyc, hcfg⟩ := validateWorkflow_ok_struct hval
  have hacyc : ¬ HasCycleRel (adjOf g.edges) :=
    hasCycles_compl (fun e he => (hedges e he).1) hcyc
  unfold runWorkflowLogic
  rw [buildExecutionGraph_ok_of_sources fun e he => (hedges e he).1]
  dsimp only
  obtain ⟨n0, hn0mem, hn0t⟩ := List.mem_map.mp huq
  have hfindS : (g.nodes.find? fun n => n.ctype == "userQuery").isSome :=
    List.find?_isSome.mpr ⟨n0, hn0mem, by simp [hn0t]⟩
  cases hfind : g.nodes.find? (fun n => n.ctype == "userQuery") with
  | none => rw [hfind] at hfindS; cases hfindS
  | some startNode =>
    dsimp only
    have hstartmem : startNode ∈ g.nodes := List.mem_of_find?_eq_some hfind
    have hwb : WalkBound (adjOf g.edges) startNode.id (execFuel g) := by
      intro l hl
      have hcl : ∀ a b, stepRel (adjOf g.edges) a b →
          b ∈ (g.nodes.map fun n => n.id) := by
        intro a b hab
        rcases stepRel_adjOf.mp hab with ⟨e, he, _, rfl⟩
        exact (hedges e he).2
      have hvU : startNode.id ∈ (g.nodes.map fun n => n.id) :=
        List.mem_map.mpr ⟨startNode, hstartmem, rfl⟩
      have hlt := chain_length_lt hcl hacyc hvU l hl
      rw [List.length_map] at hlt
      unfold execFuel
      omega
    cases hx : execNode (adjOf g.edges) g.nodes caps (execFuel g) startNode (initSt q) with
    | none => exact absurd hx (exec_some_node (execFuel g) startNode (initSt q) hwb)
    | some res =>
      have huq0 : ((initSt q).ctx "user_query").isSome := by
        simp [initSt, seedCtx]
      obtain ⟨p, rfl⟩ :=
        exec_ok_node (execFuel g) startNode (initSt q) hstartmem hknown huq0 res hx
      obtain ⟨stR, r⟩ := p
      dsimp only
      exact ⟨_, rfl⟩

/-- The contribution of the last node the traversal executed (its handler
    ran last), or the empty dict if nothing executed. -/
def lastExecContribution (out : LogicOut) : Contribution :=
  ((out.st.execTrace.getLast?).map fun p => p.2).getD []

/-- Modelled from the spec: the final-response precedence of section 4.4,
    "read the final response from context using precedence
    response, llm_response, (last node's own returned response field)",
    with an absent entry read as Python None. This definition follows the
    spec wording and is compared against the implemented computation. -/
def specFinalResponse (out : LogicOut) : Val :=
  match out.st.ctx "response" with
  | some v => v
  | none =>
    match out.st.ctx "llm_response" with
    | some v => v
    | none => ((lastExecContribution out).lookup "response").getD .vNone

lemma pyOr_truthy {a b : Val} (h : pyTruthy a = true) : pyOr a b = a := by
  unfold pyOr
  rw [h]
  rfl

lemma pyOr_vNone (b : Val) : pyOr .vNone b = b := rfl

/-! ## Knowledge-base idempotence support -/

lemma kbMissing_subset {caps : Caps} :
    ∀ {docs ms : List Val}, kbMissing caps docs = .ok ms → ∀ x ∈ ms, x ∈ docs := by
  intro docs
  induction docs with
  | nil =>
    intro ms h x hx
    simp only [kbMissing, Except.ok.injEq] at h
    rw [← h] at hx
    cases hx
  | cons d0 docs ih =>
    intro ms h x hx
    unfold kbMissing at h
    cases hv : caps.embValidate d0 with
    | error e => rw [hv] at h; cases h
    | ok v0 =>
      rw [hv] at h
      dsimp only at h
      cases hrec : kbMissing caps docs with
      | error e => rw [hrec] at h; cases h
      | ok ms2 =>
        rw [hrec] at h
        dsimp only at h
        simp only [Except.ok.injEq] at h
        rw [← h] at hx
        by_cases hc : (!v0.valid || v0.existing == 0) = true
        · rw [if_pos hc] at hx
          rcases List.mem_cons.mp hx with rfl | hx2
          · exact List.mem_cons_self x docs
          · exact List.mem_cons_of_mem d0 (ih hrec x hx2)
        · rw [if_neg hc] at hx
          exact List.mem_cons_of_mem d0 (ih hrec x hx)

lemma kbMissing_not_mem {caps : Caps} :
    ∀ {docs ms : List Val}, kbMissing caps docs = .ok ms →
      ∀ d ∈ docs, ∀ v, caps.embValidate d = .ok v → v.valid = true →
        v.existing ≠ 0 → d ∉ ms := by
  intro docs
  induction docs with
  | nil => intro ms _ d hd; cases hd
  | cons d0 docs ih =>
    intro ms h d hd v hv hvalid hex hmem
    unfold kbMissing at h
    cases hv0 : caps.embValidate d0 with
    | error e => rw [hv0] at h; cases h
    | ok v0 =>
      rw [hv0] at h
      dsimp only at h
      cases hrec : kbMissing caps docs with
      | error e => rw [hrec] at h; cases h
      | ok ms2 =>
        rw [hrec] at h
        dsimp only at h
        simp only [Except.ok.injEq] at h
        rw [← h] at hmem
        by_cases hc : (!v0.valid || v0.existing == 0) = true
        · rw [if_pos hc] at hmem
          rcases List.mem_cons.mp hmem with rfl | hmem2
          · rw [hv] at hv0
            obtain rfl : v = v0 := by cases hv0; rfl
            rw [hvalid] at hc
            simp at hc
            exact hex hc
          · exact ih hrec d (kbMissing_subset hrec d hmem2) v hv hvalid hex hmem2
        · rw [if_neg hc] at hmem
          exact ih hrec d (kbMissing_subset hrec d hmem) v hv hvalid hex hmem

lemma kbMissing_mem_missing {caps : Caps} :
    ∀ {docs ms : List Val}, kbMissing caps docs = .ok ms →
      ∀ d ∈ ms, ∃ v, caps.embValidate d = .ok v ∧
        (v.valid = false ∨ v.existing = 0) := by
  intro docs
  induction docs with
  | nil =>
    intro ms h d hd
    simp only [kbMissing, Except.ok.injEq] at h
    rw [← h] at hd
    cases hd
  | cons d0 docs ih =>
    intro ms h d hd
    unfold kbMissing at h
    cases hv0 : caps.embValidate d0 with
    | error e => rw [hv0] at h; cases h
    | ok v0 =>
      rw [hv0] at h
      dsimp only at h
      cases hrec : kbMissing caps docs with
      | error e => rw [hrec] at h; cases h
      | ok ms2 =>
        rw [hrec] at h
        dsimp only at h
        simp only [Except.ok.injEq] at h
        rw [← h] at hd
        by_cases hc : (!v0.valid || v0.existing == 0) = true
        · rw [if_pos hc] at hd
          rcases List.mem_cons.mp hd with rfl | hd2
          · refine ⟨v0, hv0, ?_⟩
            rcases Bool.or_eq_true_iff.mp hc with hc2 | hc2
            · left
              simpa using hc2
            · right
              simpa using hc2
          · exact ih hrec d hd2
        · rw [if_neg hc] at hd
          exact ih hrec d hd

lemma kbMissing_congr {caps caps2 : Caps}
    (hval : caps2.embValidate = caps.embValidate) :
    ∀ docs, kbMissing caps2 docs = kbMissing caps docs := by
  intro docs
  induction docs with
  | nil => rfl
  | cons d0 docs ih =>
    unfold kbMissing
    rw [hval, ih]

lemma kbGenAll_congr {caps caps2 : Caps} {m cs co : Val} :
    ∀ ms, (∀ d ∈ ms, caps2.embGenerate d m cs co = caps.embGenerate d m cs co) →
      kbGenAll caps2 m cs co ms = kbGenAll caps m cs co ms := by
  intro ms
  induction ms with
  | nil => intro _; rfl
  | cons d ms ih =>
    intro h
    unfold kbGenAll
    rw [h d (List.mem_cons_self d ms)]
    cases caps.embGenerate d m cs co with
    | error e => rfl
    | ok u => exact ih fun x hx => h x (List.mem_cons_of_mem d hx)

/-- The knowledge-base handler only invokes embedding generation on the
    missing documents: its behaviour is unchanged if the generation
    capability is altered on every document that already has embeddings. -/
lemma execKB_generate_invariance {caps caps2 : Caps} {config : Contribution}
    {ctx : Ctx}
    (hval : caps2.embValidate = caps.embValidate)
    (hsearch : caps2.embSearch = caps.embSearch)
    (hgen : ∀ d m cs co v, caps.embValidate d = .ok v →
      (v.valid = false ∨ v.existing = 0) →
      caps2.embGenerate d m cs co = caps.embGenerate d m cs co) :
    execKB config ctx caps2 = execKB config ctx caps := by
  unfold execKB
  cases hd : extractDocIds (cfgGetD config "selectedDocuments" (.vList [])) with
  | error e => rfl
  | ok ids =>
    dsimp only
    have hatt : kbAttempt config ctx caps2 ids = kbAttempt config ctx caps ids := by
      unfold kbAttempt
      rw [kbMissing_congr hval ids]
      cases hm : kbMissing caps ids with
      | error e => rfl
      | ok ms =>
        dsimp only
        rw [kbGenAll_congr ms (fun d hdm => by
          obtain ⟨v, hv, hmiss⟩ := kbMissing_mem_missing hm d hdm
          exact hgen d _ _ _ v hv hmiss)]
        cases kbGenAll caps (cfgGetD config "model" (.vStr "openai/text-embedding-3-large"))
            (cfgGetD config "chunkSize" (.vInt 1000))
            (cfgGetD config "chunkOverlap" (.vInt 200)) ms with
        | error e => rfl
        | ok u =>
          rw [hsearch]
    rw [hatt]

/-! ## Concrete example workflows and capabilities -/

/-- A bare `userQuery` node. -/
def uqNode : Node := { id := "uq", ctype := "userQuery", config := [] }

/-- A bare `llm` node with an empty config (no model, no apiKey). -/
def llmNode : Node := { id := "lm", ctype := "llm", config := [] }

/-- A bare `outputN` node. -/
def outNode : Node := { id := "out", ctype := "outputN", config := [] }

/-- The minimal valid chain `userQuery -> llm -> outputN`. -/
def exGraphChain : Graph :=
  { nodes := [uqNode, llmNode, outNode]
    edges := [{ id := "e1", source := "uq", target := "lm" },
              { id := "e2", source := "lm", target := "out" }] }

/-- Benign capabilities: everything succeeds, the model answers. -/
def exCapsBase : Caps :=
  { embValidate := fun _ => .ok { valid := true, existing := 1 }
    embGenerate := fun _ _ _ _ => .ok ()
    embSearch := fun _ _ _ _ => .ok []
    llmGenerate := fun _ _ _ _ => .ok "The answer."
    webSearch := fun _ _ _ => .ok []
    webSearchNews := fun _ _ _ => .ok [] }

/-- Capabilities whose language model raises on every call. -/
def exCapsRaise : Caps :=
  { exCapsBase with llmGenerate := fun _ _ _ _ => .error "boom" }

/-- An `llm` node with web search enabled and no `serpApi` key. -/
def llmNodeWeb : Node :=
  { id := "lm", ctype := "llm", config := [("webSearchEnabled", .vBool true)] }

/-- The chain with the web-search-enabled `llm` node. -/
def exGraphWeb : Graph :=
  { nodes := [uqNode, llmNodeWeb, outNode]
    edges := [{ id := "e1", source := "uq", target := "lm" },
              { id := "e2", source := "lm", target := "out" }] }

/-- A second `userQuery` node, distinct id. -/
def uqNode2 : Node := { id := "uq2", ctype := "userQuery", config := [] }

/-- A graph with two `userQuery` intakes (and the other required types). -/
def exGraphTwoUq : Graph :=
  { nodes := [uqNode, uqNode2, llmNode, outNode], edges := [] }

/-- A graph with no `userQuery` node but a dangling edge. -/
def exGraphDanglNoUq : Graph :=
  { nodes := [llmNode, outNode]
    edges := [{ id := "e", source := "lm", target := "ghost" }] }

/-- A graph with no `userQuery` node and a self-loop. -/
def exGraphCycNoUq : Graph :=
  { nodes := [llmNode], edges := [{ id := "e", source := "lm", target := "lm" }] }

/-- The chain plus a self-loop on the `llm` node: cyclic, all components
    present. -/
def exGraphCycFull : Graph :=
  { nodes := [uqNode, llmNode, outNode]
    edges := [{ id := "e1", source := "uq", target := "lm" },
              { id := "e2", source := "lm", target := "lm" }] }

/-- The chain plus a dangling edge and a self-loop: all components present,
    a dangling edge, and a cycle. -/
def exGraphDanglCyc : Graph :=
  { nodes := [uqNode, llmNode, outNode]
    edges := [{ id := "e1", source := "lm", target := "lm" },
              { id := "e2", source := "uq", target := "ghost" }] }

/-! ## C5 -/

/-- C5: the claim that a LanguageModel node lacking `model` or `apiKey`
    fails validation is false in the code: `_validate_component_config`
    tests the component type against the string `llm_engine`, but the
    nodes carry the type string `llm` (the one `validate_workflow` and
    `_execute_node` use), so the branch is dead code; no `serpApi` check
    exists anywhere. An `llm` node with an empty config, or with web
    search enabled and no `serpApi`, passes full validation. -/
theorem C5_config_validation_dead_code :
    (validateComponentConfig llmNode = .ok ()) ∧
    (validateComponentConfig { id := "lm", ctype := "llm_engine", config := [] } =
      .error (.llmEngineMissingModel "lm")) ∧
    (validateWorkflow exGraphChain =
      .ok { nodes_count := 3, edges_count := 2
            components := ["userQuery", "llm", "outputN"] }) ∧
    (validateWorkflow exGraphWeb =
      .ok { nodes_count := 3, edges_count := 2
            components := ["userQuery", "llm", "outputN"] }) :=
  ⟨rfl, rfl, rfl, rfl⟩

/-! ## C6 -/

/-- C6 counterexample: a graph with two `userQuery` nodes (and one of each
    other required type) passes validation, so multiplicity is not
    enforced, only presence. -/
theorem C6_two_intakes_pass_validation :
    (exGraphTwoUq.nodes.filter fun n => n.ctype == "userQuery").length = 2 ∧
    validateWorkflow exGraphTwoUq =
      .ok { nodes_count := 4, edges_count := 0
            components := ["userQuery", "userQuery", "llm", "outputN"] } :=
  ⟨rfl, rfl⟩

/-- C6 (amended): validation enforces presence, not multiplicity, of the
    `userQuery` and `outputN` component types: a passing graph contains at
    least one node of each type, a nonempty graph with none of type
    `userQuery` fails with the missing-user-query error, and a nonempty
    graph with a `userQuery` but no `outputN` fails with the
    missing-output error. -/
theorem C6_presence_only_enforced (g : Graph) :
    (∀ s, validateWorkflow g = .ok s →
      "userQuery" ∈ (g.nodes.map fun n => n.ctype) ∧
      "outputN" ∈ (g.nodes.map fun n => n.ctype)) ∧
    (g.nodes ≠ [] → "userQuery" ∉ (g.nodes.map fun n => n.ctype) →
      validateWorkflow g = .error .missingUserQuery) ∧
    (g.nodes ≠ [] → "userQuery" ∈ (g.nodes.map fun n => n.ctype) →
      "outputN" ∉ (g.nodes.map fun n => n.ctype) →
      validateWorkflow g = .error .missingOutput) := by
  refine ⟨?_, ?_, ?_⟩
  · intro s h
    obtain ⟨_, huq, hout2, _⟩ := validateWorkflow_ok_struct h
    exact ⟨huq, hout2⟩
  · intro hne huq
    have hni : ¬(g.nodes.isEmpty = true) := fun h => hne (List.isEmpty_iff.mp h)
    have hc : ((g.nodes.map fun n => n.ctype).contains "userQuery") = false := by
      cases hcc : ((g.nodes.map fun n => n.ctype).contains "userQuery") with
      | false => rfl
      | true => exact absurd (List.mem_of_elem_eq_true hcc) huq
    unfold validateWorkflow
    dsimp only
    rw [if_neg hni, if_pos (by rw [hc]; rfl)]
  · intro hne huq hout2
    have hni : ¬(g.nodes.isEmpty = true) := fun h => hne (List.isEmpty_iff.mp h)
    have hcu : ((g.nodes.map fun n => n.ctype).contains "userQuery") = true :=
      List.elem_eq_true_of_mem huq
    have hc : ((g.nodes.map fun n => n.ctype).contains "outputN") = false := by
      cases hcc : ((g.nodes.map fun n => n.ctype).contains "outputN") with
      | false => rfl
      | true => exact absurd (List.mem_of_elem_eq_true hcc) hout2
    unfold validateWorkflow
    dsimp only
    rw [if_neg hni, if_neg (by rw [hcu]; exact Bool.false_ne_true),
      if_pos (by rw [hc]; rfl)]

/-- C6 witness: the amended statement at three concrete graphs. -/
theorem C6_presence_only_enforced_witness :
    validateWorkflow { nodes := [llmNode, outNode], edges := [] } =
      .error .missingUserQuery ∧
    validateWorkflow { nodes := [uqNode, llmNode], edges := [] } =
      .error .missingOutput :=
  ⟨(C6_presence_only_enforced _).2.1 (by simp) (by decide),
   (C6_presence_only_enforced _).2.2 (by simp) (by decide) (by decide)⟩

/-! ## C8 -/

/-- C8 counterexample: a graph with a dangling edge but no `userQuery`
    node fails with the missing-user-query error, not the dangling-edge
    error: the required-component checks preempt the edge check, so a
    dangling edge does not always produce the dangling-edge failure. -/
theorem C8_missing_component_preempts_dangling :
    (∃ e ∈ exGraphDanglNoUq.edges,
      e.target ∉ (exGraphDanglNoUq.nodes.map fun n => n.id)) ∧
    validateWorkflow exGraphDanglNoUq = .error .missingUserQuery ∧
    (∀ s t, VErr.missingUserQuery ≠ VErr.invalidEdge s t) :=
  ⟨⟨{ id := "e", source := "lm", target := "ghost" },
    List.mem_singleton.mpr rfl, by decide⟩,
   rfl, fun s t h => VErr.noConfusion h⟩

/-- C8 (amended): once the graph is nonempty and the three required
    component types are present, a dangling edge fails validation with the
    invalid-edge error naming the first offending edge, with no hypothesis
    on cycles: the edge check runs before cycle detection, so the failure
    is independent of the cycle-detection outcome. -/
theorem C8_dangling_edge_after_components {g : Graph}
    (hne : g.nodes ≠ [])
    (huq : "userQuery" ∈ (g.nodes.map fun n => n.ctype))
    (hout2 : "outputN" ∈ (g.nodes.map fun n => n.ctype))
    (hllm : "llm" ∈ (g.nodes.map fun n => n.ctype))
    (hdangl : ∃ e ∈ g.edges, e.source ∉ (g.nodes.map fun n => n.id) ∨
      e.target ∉ (g.nodes.map fun n => n.id)) :
    ∃ e ∈ g.edges,
      (e.source ∉ (g.nodes.map fun n => n.id) ∨
        e.target ∉ (g.nodes.map fun n => n.id)) ∧
      validateWorkflow g = .error (.invalidEdge e.source e.target) := by
  have hni : ¬(g.nodes.isEmpty = true) := fun h => hne (List.isEmpty_iff.mp h)
  have hcu : ((g.nodes.map fun n => n.ctype).contains "userQuery") = true :=
    List.elem_eq_true_of_mem huq
  have hco : ((g.nodes.map fun n => n.ctype).contains "outputN") = true :=
    List.elem_eq_true_of_mem hout2
  have hcl : ((g.nodes.map fun n => n.ctype).contains "llm") = true :=
    List.elem_eq_true_of_mem hllm
  have hsome : (g.edges.find? (fun e =>
      !((g.nodes.map fun n => n.id).contains e.source &&
        (g.nodes.map fun n => n.id).contains e.target))).isSome := by
    obtain ⟨e, hem, hbad⟩ := hdangl
    refine List.find?_isSome.mpr ⟨e, hem, ?_⟩
    cases hcs : ((g.nodes.map fun n => n.id).contains e.source) with
    | false => rfl
    | true =>
      cases hct : ((g.nodes.map fun n => n.id).contains e.target) with
      | false => rfl
      | true =>
        exfalso
        rcases hbad with hb | hb
        · exact hb (List.mem_of_elem_eq_true hcs)
        · exact hb (List.mem_of_elem_eq_true hct)
  cases hf : g.edges.find? (fun e =>
      !((g.nodes.map fun n => n.id).contains e.source &&
        (g.nodes.map fun n => n.id).contains e.target)) with
  | none => rw [hf] at hsome; cases hsome
  | some e0 =>
    have hmem : e0 ∈ g.edges := List.mem_of_find?_eq_some hf
    have hP := List.find?_some hf
    have hbad : e0.source ∉ (g.nodes.map fun n => n.id) ∨
        e0.target ∉ (g.nodes.map fun n => n.id) := by
      cases hcs : ((g.nodes.map fun n => n.id).contains e0.source) with
      | false =>
        refine Or.inl fun hm => ?_
        have h2 : ((g.nodes.map fun n => n.id).contains e0.source) = true :=
          List.elem_eq_true_of_mem hm
        rw [hcs] at h2
        cases h2
      | true =>
        cases hct : ((g.nodes.map fun n => n.id).contains e0.target) with
        | false =>
          refine Or.inr fun hm => ?_
          have h2 : ((g.nodes.map fun n => n.id).contains e0.target) = true :=
            List.elem_eq_true_of_mem hm
          rw [hct] at h2
          cases h2
        | true =>
          exfalso
          rw [hcs, hct] at hP
          cases hP
    refine ⟨e0, hmem, hbad, ?_⟩
    unfold validateWorkflow
    dsimp only
    rw [if_neg hni, if_neg (by rw [hcu]; exact Bool.false_ne_true),
      if_neg (by rw [hco]; exact Bool.false_ne_true),
      if_neg (by rw [hcl]; exact Bool.false_ne_true), hf]

/-- C8 witness: the amended statement on a graph that has the required
    components, a self-loop cycle, and a dangling edge: the dangling-edge
    error is produced despite the cycle. -/
theorem C8_dangling_edge_after_components_witness :
    ∃ e ∈ exGraphDanglCyc.edges,
      (e.source ∉ (exGraphDanglCyc.nodes.map fun n => n.id) ∨
        e.target ∉ (exGraphDanglCyc.nodes.map fun n => n.id)) ∧
      validateWorkflow exGraphDanglCyc = .error (.invalidEdge e.source e.target) :=
  C8_dangling_edge_after_components (by simp [exGraphDanglCyc]) (by decide)
    (by decide) (by decide)
    ⟨{ id := "e2", source := "uq", target := "ghost" },
     List.mem_cons_of_mem _ (List.mem_singleton.mpr rfl), Or.inr (by decide)⟩

/-! ## C4 -/

/-- C4 counterexample: a graph with a self-loop (a directed cycle) but no
    `userQuery` node fails with the missing-user-query error, not the
    cycle error: the claim that every cyclic graph fails with the cycle
    error ignores the earlier required-component checks. -/
theorem C4_component_check_preempts_cycle :
    HasCycleRel (adjOf exGraphCycNoUq.edges) ∧
    validateWorkflow exGraphCycNoUq = .error .missingUserQuery ∧
    VErr.missingUserQuery ≠ VErr.cyclic :=
  ⟨⟨"lm", Relation.TransGen.single (by decide :
      "lm" ∈ adjOf exGraphCycNoUq.edges "lm")⟩,
   rfl, fun h => VErr.noConfusion h⟩

/-- C4 (amended): once the graph is nonempty, has the three required
    component types and no dangling edge, cycle detection is sound and
    complete: a directed cycle in the edge digraph (self-loops included)
    yields exactly the cycle error, and an acyclic graph whose component
    configurations pass yields the success summary. -/
theorem C4_cycle_error_under_preconditions {g : Graph}
    (hne : g.nodes ≠ [])
    (huq : "userQuery" ∈ (g.nodes.map fun n => n.ctype))
    (hout2 : "outputN" ∈ (g.nodes.map fun n => n.ctype))
    (hllm : "llm" ∈ (g.nodes.map fun n => n.ctype))
    (hedges : ∀ e ∈ g.edges, e.source ∈ (g.nodes.map fun n => n.id) ∧
      e.target ∈ (g.nodes.map fun n => n.id)) :
    (HasCycleRel (adjOf g.edges) → validateWorkflow g = .error .cyclic) ∧
    (¬ HasCycleRel (adjOf g.edges) → validateConfigs g.nodes = .ok () →
      validateWorkflow g =
        .ok { nodes_count := g.nodes.length, edges_count := g.edges.length
              components := g.nodes.map fun n => n.ctype }) := by
  have hni : ¬(g.nodes.isEmpty = true) := fun h => hne (List.isEmpty_iff.mp h)
  have hcu : ((g.nodes.map fun n => n.ctype).contains "userQuery") = true :=
    List.elem_eq_true_of_mem huq
  have hco : ((g.nodes.map fun n => n.ctype).contains "outputN") = true :=
    List.elem_eq_true_of_mem hout2
  have hcl : ((g.nodes.map fun n => n.ctype).contains "llm") = true :=
    List.elem_eq_true_of_mem hllm
  have hfnone : g.edges.find? (fun e =>
      !((g.nodes.map fun n => n.id).contains e.source &&
        (g.nodes.map fun n => n.id).contains e.target)) = none := by
    refine List.find?_eq_none.mpr fun e hem => ?_
    have h1 : ((g.nodes.map fun n => n.id).contains e.source) = true :=
      List.elem_eq_true_of_mem (hedges e hem).1
    have h2 : ((g.nodes.map fun n => n.id).contains e.target) = true :=
      List.elem_eq_true_of_mem (hedges e hem).2
    rw [h1, h2]
    decide
  constructor
  · intro hcyc
    have hcy : hasCycles g.nodes g.edges = true := by
      cases hcc : hasCycles g.nodes g.edges with
      | true => rfl
      | false =>
        exact absurd hcyc (hasCycles_compl (fun e he => (hedges e he).1) hcc)
    unfold validateWorkflow
    dsimp only
    rw [if_neg hni, if_neg (by rw [hcu]; exact Bool.false_ne_true),
      if_neg (by rw [hco]; exact Bool.false_ne_true),
      if_neg (by rw [hcl]; exact Bool.false_ne_true), hfnone]
    dsimp only
    rw [if_pos hcy]
  · intro hacyc hcfg
    have hcy : hasCycles g.nodes g.edges = false := by
      cases hcc : hasCycles g.nodes g.edges with
      | false => rfl
      | true => exact absurd (hasCycles_sound hcc) hacyc
    unfold validateWorkflow
    dsimp only
    rw [if_neg hni, if_neg (by rw [hcu]; exact Bool.false_ne_true),
      if_neg (by rw [hco]; exact Bool.false_ne_true),
      if_neg (by rw [hcl]; exact Bool.false_ne_true), hfnone]
    dsimp only
    rw [if_neg (by rw [hcy]; exact Bool.false_ne_true), hcfg]

/-- C4 witness: the amended statement applied to the cyclic chain (the
    self-loop yields the cycle error) and to the acyclic chain (validation
    succeeds). -/
theorem C4_cycle_error_under_preconditions_witness :
    validateWorkflow exGraphCycFull = .error .cyclic ∧
    validateWorkflow exGraphChain =
      .ok { nodes_count := 3, edges_count := 2
            components := ["userQuery", "llm", "outputN"] } := by
  constructor
  · exact (C4_cycle_error_under_preconditions (by simp [exGraphCycFull]) (by decide)
      (by decide) (by decide) (by decide)).1
      ⟨"lm", Relation.TransGen.single (by decide :
        "lm" ∈ adjOf exGraphCycFull.edges "lm")⟩
  · exact (C4_cycle_error_under_preconditions (by simp [exGraphChain]) (by decide)
      (by decide) (by decide) (by decide)).2
      (@hasCycles_compl exGraphChain.nodes exGraphChain.edges (by decide) rfl) rfl

/-! ## Concrete runs -/

/-- Fallback payload for extracting a concrete completed run (never
    reached: the matched runs complete). -/
def fallbackOut : LogicOut :=
  { res := { response := .vNone, llm_response := .vNone
             sources := .vNone, metadata := .vNone }
    st := { ctx := fun _ => none, execTrace := [], applyTrace := [] }
    startResult := [] }

/-- The completed benign run of the minimal chain. -/
def exOut : LogicOut :=
  match runWorkflowLogic exGraphChain "hi" exCapsBase with
  | some (.ok out) => out
  | _ => fallbackOut

/-- A knowledge base selecting no documents, searching with model `A`. -/
def kbNode1 : Node :=
  { id := "kb1", ctype := "knowledgeBase", config := [("model", .vStr "A")] }

/-- A knowledge base selecting no documents, searching with model `B`. -/
def kbNode2 : Node :=
  { id := "kb2", ctype := "knowledgeBase", config := [("model", .vStr "B")] }

/-- The chain `userQuery -> kb1 -> kb2`. -/
def exGraphKb : Graph :=
  { nodes := [uqNode, kbNode1, kbNode2]
    edges := [{ id := "e1", source := "uq", target := "kb1" },
              { id := "e2", source := "kb1", target := "kb2" }] }

/-- Capabilities whose similarity search answers `K1` under model `A` and
    `K2` otherwise, so the two knowledge bases write different values. -/
def exCapsKb : Caps :=
  { exCapsBase with embSearch := fun _ _ _ m =>
      if (pyValEqStr m "A") then
        (.ok [{ document_id := .vInt 1, document_name := "d",
                chunk_text := "K1", similarity_score := .vInt 1 }])
      else
        (.ok [{ document_id := .vInt 1, document_name := "d",
                chunk_text := "K2", similarity_score := .vInt 1 }]) }

/-- The completed run of the knowledge-base chain. -/
def exOutKb : LogicOut :=
  match runWorkflowLogic exGraphKb "hi" exCapsKb with
  | some (.ok out) => out
  | _ => fallbackOut

/-- Every node of the minimal chain is recognised and well-configured. -/
lemma exGraphChain_known : ∀ n ∈ exGraphChain.nodes, KnownWfNode n := by
  intro n hn
  have hn2 : n ∈ [uqNode, llmNode, outNode] := hn
  rcases List.mem_cons.mp hn2 with rfl | hn2
  · exact ⟨Or.inl rfl, fun h => absurd h (by decide), fun h => absurd h (by decide)⟩
  rcases List.mem_cons.mp hn2 with rfl | hn2
  · exact ⟨Or.inr (Or.inr (Or.inl rfl)), fun _ => ⟨rfl, rfl⟩,
      fun h => absurd h (by decide)⟩
  rcases List.mem_cons.mp hn2 with rfl | hn2
  · exact ⟨Or.inr (Or.inr (Or.inr (Or.inr rfl))), fun h => absurd h (by decide),
      fun h => absurd h (by decide)⟩
  cases hn2

/-- An error-prefixed generation message is never the apology string: the
    two differ in their first character. -/
lemma errPrefix_ne_apology (m : String) :
    "Error generating response: " ++ m ≠ apologyString := by
  cases m with
  | mk d =>
    intro h
    have h2 : ("Error generating response: " ++ String.mk d).data =
        apologyString.data := congrArg String.data h
    injection h2 with h3 _
    exact absurd h3 (by decide)

/-! ## C7 -/

/-- C7: a validation-passing graph always executes to a RunRecord, for
    every behaviour of the external capabilities: the record's status is
    completed with a result payload, or failed with the failure
    description in the logs; no error crosses the public boundary, and
    the traversal terminates (the validated graph is acyclic, so the fuel
    suffices). -/
theorem C7_execute_returns_record {g : Graph} {q : String} {caps : Caps}
    {s : ValidationSummary} (hval : validateWorkflow g = .ok s) :
    ∃ rec, executeWorkflow g q caps = some rec ∧
      ((rec.status = "completed" ∧ rec.result.isSome ∧ rec.logsError = none) ∨
       (rec.status = "failed" ∧ rec.result = none ∧ (rec.logsError).isSome)) := by
  obtain ⟨hne, huq, hout2, hllm, hedges, hcyc, hcfg⟩ := validateWorkflow_ok_struct hval
  have hacyc : ¬ HasCycleRel (adjOf g.edges) :=
    hasCycles_compl (fun e he => (hedges e he).1) hcyc
  have hns : runWorkflowLogic g q caps ≠ none :=
    runWorkflowLogic_isSome hedges hacyc
  unfold executeWorkflow
  cases hr : runWorkflowLogic g q caps with
  | none => exact absurd hr hns
  | some res =>
    cases res with
    | error e => exact ⟨_, rfl, Or.inr ⟨rfl, rfl, rfl⟩⟩
    | ok out => exact ⟨_, rfl, Or.inl ⟨rfl, rfl, rfl⟩⟩

/-- C7 witness: the chain with the always-raising model still yields a
    record. -/
theorem C7_execute_returns_record_witness :
    ∃ rec, executeWorkflow exGraphChain "hi" exCapsRaise = some rec ∧
      ((rec.status = "completed" ∧ rec.result.isSome ∧ rec.logsError = none) ∨
       (rec.status = "failed" ∧ rec.result = none ∧ (rec.logsError).isSome)) :=
  C7_execute_returns_record rfl

/-! ## C1 -/

/-- C1 counterexample: with the minimal valid chain and a language-model
    capability that raises on every call, execute returns a completed
    record whose response is the error-prefixed message, which is not the
    fixed apology string. -/
theorem C1_raising_llm_yields_error_string :
    (∀ sp p mo t, exCapsRaise.llmGenerate sp p mo t = .error "boom") ∧
    executeWorkflow exGraphChain "hi" exCapsRaise = some
      { status := "completed"
        result := some
          { response := .vStr "Error generating response: boom"
            llm_response := .vStr "Error generating response: boom"
            sources := .vList []
            metadata := .vMap [("model_used", .vStr ""),
                               ("web_search_used", .vBool false)] }
        logsError := none } ∧
    "Error generating response: boom" ≠ apologyString :=
  ⟨fun _ _ _ _ => rfl, rfl, by decide⟩

/-- C1 (amended): the LanguageModel handler indeed never aborts traversal
    (a validated, well-configured graph completes for every capability
    behaviour), but when generation raises the handler's `llm_response` is
    the error-prefixed message `Error generating response: <e>`, never the
    fixed apology string; the apology is substituted only for an empty or
    blank successful generation. -/
theorem C1_llm_failure_never_aborts {g : Graph} {q : String} {caps : Caps}
    {s : ValidationSummary} {m : String} (hval : validateWorkflow g = .ok s)
    (hknown : ∀ n ∈ g.nodes, KnownWfNode n)
    (hraise : ∀ sp p mo t, caps.llmGenerate sp p mo t = .error m) :
    (∃ res, executeWorkflow g q caps =
      some { status := "completed", result := some res, logsError := none }) ∧
    (∀ config ctx, LlmCfgOK config →
      execLLM config ctx caps =
        .ok [("llm_response", .vStr ("Error generating response: " ++ m)),
             ("model_used", cfgGetD config "model" (.vStr "")),
             ("web_search_used", cfgGetD config "webSearchEnabled" (.vBool false))]) ∧
    "Error generating response: " ++ m ≠ apologyString := by
  refine ⟨?_, ?_, errPrefix_ne_apology m⟩
  · obtain ⟨out, hout⟩ := runWorkflowLogic_completes hval hknown
    refine ⟨out.res, ?_⟩
    unfold executeWorkflow
    rw [hout]
  · intro config ctx hcfg
    unfold execLLM
    rw [hcfg.1]
    dsimp only
    rw [hcfg.2]
    dsimp only
    rw [hraise]

/-- C1 witness: the amended statement at the chain and the raising model. -/
theorem C1_llm_failure_never_aborts_witness :
    (∃ res, executeWorkflow exGraphChain "hi" exCapsRaise =
      some { status := "completed", result := some res, logsError := none }) ∧
    (∀ config ctx, LlmCfgOK config →
      execLLM config ctx exCapsRaise =
        .ok [("llm_response", .vStr ("Error generating response: " ++ "boom")),
             ("model_used", cfgGetD config "model" (.vStr "")),
             ("web_search_used", cfgGetD config "webSearchEnabled" (.vBool false))]) ∧
    "Error generating response: " ++ "boom" ≠ apologyString :=
  C1_llm_failure_never_aborts rfl exGraphChain_known (fun _ _ _ _ => rfl)

/-! ## C2 -/

/-- C2: the final response of every completed traversal is the
    spec-stated precedence response, then llm_response, then the last
    executed node's own returned response field. The code reads
    truthiness where the spec reads presence, and falls back to the
    start node's contribution rather than the last executed node's, but
    the two computations agree on every completed run: present context
    entries for these keys are handler-written and truthy, and when both
    are absent no applied contribution wrote response at all, so both
    fallbacks yield None. -/
theorem C2_final_response_precedence {g : Graph} {q : String} {caps : Caps}
    {out : LogicOut} (h : runWorkflowLogic g q caps = some (.ok out)) :
    out.res.response = specFinalResponse out := by
  obtain ⟨adj, sN, hb, hfind, hx, hres, hllm2, hsrc2, hmet⟩ :=
    runWorkflowLogic_inversion h
  obtain ⟨hctx, hgood, hsub, hstartmem, hne⟩ := runWorkflowLogic_delta h
  rw [hres]
  unfold specFinalResponse
  cases hr : out.st.ctx "response" with
  | some v =>
    have hvt : pyTruthy v = true := by
      rw [hctx] at hr
      rcases foldl_ctxUpdate_some_source hr with hseed | ⟨r, hrm, hrl⟩
      · have hseed2 : (none : Option Val) = some v := hseed
        cases hseed2
      · exact (hgood r hrm).2.1 v hrl
    show pyOr (ctxGetV out.st.ctx "response")
      (pyOr (ctxGetV out.st.ctx "llm_response")
        ((out.startResult.lookup "response").getD .vNone)) = v
    unfold ctxGetV
    rw [hr]
    exact pyOr_truthy hvt
  | none =>
    have h1 : ctxGetV out.st.ctx "response" = .vNone := by
      unfold ctxGetV
      rw [hr]
      rfl
    rw [h1, pyOr_vNone]
    cases hl : out.st.ctx "llm_response" with
    | some w =>
      have hwt : pyTruthy w = true := by
        rw [hctx] at hl
        rcases foldl_ctxUpdate_some_source hl with hseed | ⟨r, hrm, hrl⟩
        · have hseed2 : (none : Option Val) = some w := hseed
          cases hseed2
        · exact (hgood r hrm).2.2 w hrl
      show pyOr (ctxGetV out.st.ctx "llm_response")
        ((out.startResult.lookup "response").getD .vNone) = w
      unfold ctxGetV
      rw [hl]
      exact pyOr_truthy hwt
    | none =>
      have h2 : ctxGetV out.st.ctx "llm_response" = .vNone := by
        unfold ctxGetV
        rw [hl]
        rfl
      rw [h2, pyOr_vNone]
      have hall : ∀ r ∈ out.st.applyTrace, r.lookup "response" = none := by
        rw [hctx] at hr
        exact (foldl_ctxUpdate_none.mp hr).2
      have hstart : out.startResult.lookup "response" = none := hall _ hstartmem
      have hlast : (lastExecContribution out).lookup "response" = none := by
        unfold lastExecContribution
        cases hgl : out.st.execTrace.getLast? with
        | none => rfl
        | some p => exact hall p.2 (hsub p (getLast?_mem hgl))
      rw [hstart, hlast]

/-- C2 witness: the precedence equality on the benign chain run. -/
theorem C2_final_response_precedence_witness :
    exOut.res.response = specFinalResponse exOut :=
  @C2_final_response_precedence exGraphChain "hi" exCapsBase exOut rfl

/-! ## C3 -/

/-- C3 counterexample: in the chain uq -> kb1 -> kb2 the two knowledge
    bases execute in the order kb1, kb2 and write different values to
    `knowledge_context`, yet the final context holds kb1's value: after
    each child subtree returns, `_execute_node` re-applies the child's
    own contribution (`context.update(next_result)`), so the later write
    along the traversal order is overwritten by the earlier node's
    re-applied contribution. -/
theorem C3_later_traversal_write_loses :
    runWorkflowLogic exGraphKb "hi" exCapsKb = some (.ok exOutKb) ∧
    exOutKb.st.execTrace.map (fun p => p.1) = ["uq", "kb1", "kb2"] ∧
    ((exOutKb.st.execTrace.get? 1).map fun p => p.2.lookup "knowledge_context") =
      some (some (.vStr "Document: d\nContent: K1")) ∧
    ((exOutKb.st.execTrace.get? 2).map fun p => p.2.lookup "knowledge_context") =
      some (some (.vStr "Document: d\nContent: K2")) ∧
    exOutKb.st.ctx "knowledge_context" = some (.vStr "Document: d\nContent: K1") ∧
    ("Document: d\nContent: K1" : String) ≠ "Document: d\nContent: K2" :=
  ⟨rfl, rfl, rfl, rfl, rfl, by decide⟩

/-- C3 (amended): context merging is monotone and last-writer-wins along
    the application order, not the traversal order: the final context is
    exactly the left fold of `context.update` over the applied
    contributions, a key present after any prefix of the applications is
    still present at the end (in particular the seed key `user_query`),
    and each key holds the value of the latest applied contribution
    writing it. Because `_execute_node` re-applies each child's own
    contribution after the child's subtree returns, the application order
    differs from the traversal order, and an earlier-executed node can
    supply the final value of a key a later-executed node also wrote. -/
theorem C3_merge_monotone_lww {g : Graph} {q : String} {caps : Caps}
    {out : LogicOut} (h : runWorkflowLogic g q caps = some (.ok out)) :
    out.st.ctx = List.foldl ctxUpdate (seedCtx q) out.st.applyTrace ∧
    (∀ d₁ d₂, out.st.applyTrace = d₁ ++ d₂ → ∀ k,
      (List.foldl ctxUpdate (seedCtx q) d₁) k ≠ none → out.st.ctx k ≠ none) ∧
    out.st.ctx "user_query" ≠ none ∧
    (∀ k, out.st.ctx k =
      ((lastWrite k out.st.applyTrace).orElse fun _ => seedCtx q k)) := by
  obtain ⟨hctx, hgood, hsub, hstartmem, hne⟩ := runWorkflowLogic_delta h
  refine ⟨hctx, ?_, ?_, ?_⟩
  · intro d₁ d₂ hsplit k hk
    rw [hctx, hsplit, List.foldl_append]
    exact foldl_ctxUpdate_mono hk
  · rw [hctx]
    exact foldl_ctxUpdate_mono fun hc => Option.noConfusion hc
  · intro k
    rw [hctx]
    exact foldl_ctxUpdate_lastWriter

/-- C3 witness: the amended statement on the knowledge-base chain run. -/
theorem C3_merge_monotone_lww_witness :
    exOutKb.st.ctx = List.foldl ctxUpdate (seedCtx "hi") exOutKb.st.applyTrace ∧
    (∀ d₁ d₂, exOutKb.st.applyTrace = d₁ ++ d₂ → ∀ k,
      (List.foldl ctxUpdate (seedCtx "hi") d₁) k ≠ none → exOutKb.st.ctx k ≠ none) ∧
    exOutKb.st.ctx "user_query" ≠ none ∧
    (∀ k, exOutKb.st.ctx k =
      ((lastWrite k exOutKb.st.applyTrace).orElse fun _ => seedCtx "hi" k)) :=
  @C3_merge_monotone_lww exGraphKb "hi" exCapsKb exOutKb rfl

/-! ## C10 -/

/-- C10: the `user_query` key is immutable: no executed handler's
    contribution contains it, no applied contribution contains it, and
    the final context still maps it to the original caller-supplied
    query string. -/
theorem C10_user_query_immutable {g : Graph} {q : String} {caps : Caps}
    {out : LogicOut} (h : runWorkflowLogic g q caps = some (.ok out)) :
    (∀ p ∈ out.st.execTrace, p.2.lookup "user_query" = none) ∧
    (∀ r ∈ out.st.applyTrace, r.lookup "user_query" = none) ∧
    out.st.ctx "user_query" = some (.vStr q) := by
  obtain ⟨hctx, hgood, hsub, hstartmem, hne⟩ := runWorkflowLogic_delta h
  refine ⟨fun p hp => (hgood _ (hsub p hp)).1, fun r hr => (hgood r hr).1, ?_⟩
  rw [hctx, foldl_ctxUpdate_value_eq fun r hr => (hgood r hr).1]
  rfl

/-- C10 witness: immutability of `user_query` on the benign chain run. -/
theorem C10_user_query_immutable_witness :
    (∀ p ∈ exOut.st.execTrace, p.2.lookup "user_query" = none) ∧
    (∀ r ∈ exOut.st.applyTrace, r.lookup "user_query" = none) ∧
    exOut.st.ctx "user_query" = some (.vStr "hi") :=
  @C10_user_query_immutable exGraphChain "hi" exCapsBase exOut rfl

/-! ## C9 -/

/-- C9: the KnowledgeBase handler is idempotent with respect to embedding
    generation: a selected document whose embeddings the capability
    reports valid and existing is never in the missing set that
    generation is invoked on; every document in that set is reported
    missing; and the handler's whole result is invariant under changing
    the generation capability on documents with existing embeddings, so
    generation is invoked only for missing documents. -/
theorem C9_kb_generation_idempotent {caps : Caps} :
    (∀ docs ms, kbMissing caps docs = .ok ms →
      ∀ d ∈ docs, ∀ v, caps.embValidate d = .ok v → v.valid = true →
        v.existing ≠ 0 → d ∉ ms) ∧
    (∀ docs ms, kbMissing caps docs = .ok ms →
      ∀ d ∈ ms, ∃ v, caps.embValidate d = .ok v ∧
        (v.valid = false ∨ v.existing = 0)) ∧
    (∀ caps2 config ctx, caps2.embValidate = caps.embValidate →
      caps2.embSearch = caps.embSearch →
      (∀ d m cs co v, caps.embValidate d = .ok v →
        (v.valid = false ∨ v.existing = 0) →
        caps2.embGenerate d m cs co = caps.embGenerate d m cs co) →
      execKB config ctx caps2 = execKB config ctx caps) :=
  ⟨fun docs ms h => kbMissing_not_mem h,
   fun docs ms h => kbMissing_mem_missing h,
   fun caps2 config ctx hv hs hg => execKB_generate_invariance hv hs hg⟩

/-- Capabilities for the C9 witness: document `doc1` has embeddings,
    every other document does not. -/
def exCapsKbW : Caps :=
  { exCapsBase with embValidate := fun d =>
      if (pyValEqStr d "doc1") then (.ok { valid := true, existing := 2 })
      else (.ok { valid := false, existing := 0 }) }

/-- The same capabilities with generation altered on `doc1` only (it
    would raise if invoked there). -/
def exCapsKbW2 : Caps :=
  { exCapsKbW with embGenerate := fun d _ _ _ =>
      if (pyValEqStr d "doc1") then (.error "regenerated") else (.ok ()) }

/-- C9 witness: with documents doc1 (existing embeddings) and doc2
    (missing), doc1 is not in the missing set, and altering generation on
    doc1 does not change the handler's result. -/
theorem C9_kb_generation_idempotent_witness :
    ((.vStr "doc1" : Val) ∉ ([.vStr "doc2"] : List Val)) ∧
    execKB [("selectedDocuments", .vList [.vStr "doc1", .vStr "doc2"])]
        (seedCtx "hi") exCapsKbW2 =
      execKB [("selectedDocuments", .vList [.vStr "doc1", .vStr "doc2"])]
        (seedCtx "hi") exCapsKbW := by
  constructor
  · exact (@C9_kb_generation_idempotent exCapsKbW).1
      [.vStr "doc1", .vStr "doc2"] [.vStr "doc2"] rfl
      (.vStr "doc1") (List.mem_cons_self _ _)
      { valid := true, existing := 2 } rfl rfl (by decide)
  · refine (@C9_kb_generation_idempotent exCapsKbW).2.2 exCapsKbW2 _ _ rfl rfl ?_
    intro d m cs co v hv hmiss
    by_cases hd : (pyValEqStr d "doc1") = true
    · have hv2 : (if (pyValEqStr d "doc1") then
          (.ok { valid := true, existing := 2 } : Except String EmbValidation)
        else (.ok { valid := false, existing := 0 })) = .ok v := hv
      rw [if_pos hd] at hv2
      cases hv2
      exact absurd hmiss (by decide)
    · show (if (pyValEqStr d "doc1") then (.error "regenerated" : Except String Unit)
        else (.ok ())) = exCapsKbW.embGenerate d m cs co
      rw [if_neg hd]
      rfl

end GenAIStack
